import Mathlib

/-!
Grade-book manager: tasks, per-student scores and chunked aggregation

A shallow embedding of `main.cpp` (`struct Task`, `class TaskManager`, `main`).

Modelling conventions
* `std::vector<T>` is a `List T`; an indexed read is a `[j]?` lookup, and a read
  outside the vector makes the enclosing operation return `none`.
* `std::map<string, vector<int>>` is an association list kept in strictly
  ascending key order, keys compared character by character as `std::string`
  does: `map_find` is `map::find`, `map_assign` is `m[k] = v`, `map_index` is a
  read through `m[k]`, which default-inserts an empty vector when the key is
  missing.
* `int` values are `Int`. The program only compares, copies and clamps them, so
  no `int` arithmetic can wrap; vector sizes are assumed to fit an `int`.
* Lines 49 to 87 are read twice. `calculate_result` reads them in exact
  arithmetic: the per-thread sums are integers and the quotient is a rational.
  `calculate_result_ieee` reads them in the arithmetic of the `double` type
  (IEEE 754 binary64, round to nearest, ties to even): every `+=` and the final
  division round their exact result to the nearest double. A slot only ever
  holds a rounded sum of `int` values, which is an integer. While the absolute
  values of the clamped scores sum to at most `2^53` no addition rounds, and the
  two readings differ only by the rounding of the final quotient
  (`calculate_result_ieee_vs_exact`). Statements that depend on the rounding of
  the returned value are made on `calculate_result_ieee`; `demo_results_ieee`
  gives the results of `main` on it.
* The worker threads write disjoint slots; they are run one after the other in
  index order.
* Console output is not modelled.
-/

namespace TaskManagerModel

/-- Structure to store information about tasks. -/
structure Task where
  name : String
  max_score : Int
  deriving DecidableEq, Repr

/-- The score map of the manager, as a key-ordered association list. -/
abbrev ScoreMap := List (String × List Int)

/-- Class to store and evaluate task results. -/
structure TaskManager where
  tasks : List Task
  scores : ScoreMap
  num_threads : Int
  deriving DecidableEq, Repr

/-- The constructor: no tasks, no scores, the given number of worker threads. -/
def TaskManager.new (num_threads : Int) : TaskManager :=
  { tasks := [], scores := [], num_threads := num_threads }

/-! ## `std::map` operations -/

/-- Lookup of a key, as `map::find`. -/
def map_find : ScoreMap → String → Option (List Int)
  | [], _ => none
  | (k, v) :: rest, key => if key = k then some v else map_find rest key

/-- Assignment `m[key] = value`: overwrites the entry of `key`, or inserts a new
entry at its place in key order. -/
def map_assign : ScoreMap → String → List Int → ScoreMap
  | [], key, value => [(key, value)]
  | (k, v) :: rest, key, value =>
    if key.data < k.data then (key, value) :: (k, v) :: rest
    else if key = k then (key, value) :: rest
    else (k, v) :: map_assign rest key value

/-- A read through `m[key]`: the stored vector, or a freshly inserted empty
vector when the key has no entry. Returns the map after the access as well. -/
def map_index (m : ScoreMap) (key : String) : ScoreMap × List Int :=
  match map_find m key with
  | some v => (m, v)
  | none => (map_assign m key [], [])

/-! ## Mutators -/

/-- Add a task. -/
def add_task (tm : TaskManager) (name : String) (max_score : Int) : TaskManager :=
  { tm with tasks := tm.tasks ++ [{ name := name, max_score := max_score }] }

/-- The scan of `add_scores`: does the loop meet a negative score? -/
def has_negative : List Int → Bool
  | [] => false
  | score :: rest => if score < 0 then true else has_negative rest

/-- Add scores for a student: rejected as a whole when a score is negative. -/
def add_scores (tm : TaskManager) (student : String) (student_scores : List Int) :
    TaskManager :=
  if has_negative student_scores then tm
  else { tm with scores := map_assign tm.scores student student_scores }

/-! ## Aggregation -/

/-- `slots[i] += v` on the vector of per-thread sums, in exact arithmetic
(`add_at_ieee` is the rounded update). -/
def add_at : List Int → Nat → Int → List Int
  | [], _, _ => []
  | x :: xs, 0, v => (x + v) :: xs
  | x :: xs, i + 1, v => x :: add_at xs i v

/-- One iteration of a worker's loop at task index `j`, for the worker with slot
`i`. The state is the worker's private copy of the student's scores and the
vector of per-thread sums. -/
def worker_body (tasks : List Task) (i : Nat) (st : List Int × List Int) (j : Nat) :
    Option (List Int × List Int) :=
  match st.1[j]? with
  | none => none
  | some s =>
    if s < 0 then
      some (st.1.set j 0, add_at st.2 i 0)
    else
      match tasks[j]? with
      | none => none
      | some t =>
        if s > t.max_score then
          some (st.1.set j t.max_score, add_at st.2 i t.max_score)
        else
          some (st.1, add_at st.2 i s)

/-- The loop `for (j = start; j < end; j++)` of a worker, with `count`
iterations left. -/
def worker_loop (tasks : List Task) (i : Nat) :
    Nat → Nat → List Int × List Int → Option (List Int × List Int)
  | _, 0, st => some st
  | j, count + 1, st =>
    match worker_body tasks i st j with
    | none => none
    | some st' => worker_loop tasks i (j + 1) count st'

/-- First index of the chunk of worker `i`. -/
def chunk_start (tasks_per_thread i : Nat) : Nat := i * tasks_per_thread

/-- One-past-last index of the chunk of worker `i`. -/
def chunk_end (num_threads num_tasks tasks_per_thread i : Nat) : Nat :=
  if i = num_threads - 1 then num_tasks else (i + 1) * tasks_per_thread

/-- The body of worker thread `i`, as a function on the vector of per-thread
sums. -/
def worker (tasks : List Task) (student_scores : List Int)
    (num_threads num_tasks tasks_per_thread i : Nat) (slots : List Int) :
    Option (List Int) :=
  let start := chunk_start tasks_per_thread i
  let stop := chunk_end num_threads num_tasks tasks_per_thread i
  match worker_loop tasks i start (stop - start) (student_scores, slots) with
  | none => none
  | some st => some st.2

/-- Workers `i, i+1, ..., i+count-1` run one after the other. -/
def run_workers (tasks : List Task) (student_scores : List Int)
    (num_threads num_tasks tasks_per_thread : Nat) :
    Nat → Nat → List Int → Option (List Int)
  | _, 0, slots => some slots
  | i, count + 1, slots =>
    match worker tasks student_scores num_threads num_tasks tasks_per_thread i slots with
    | none => none
    | some slots' =>
      run_workers tasks student_scores num_threads num_tasks tasks_per_thread (i + 1) count slots'

/-- The value of a `double` quotient: a finite number, or what a division by
zero produces. -/
inductive DoubleVal where
  | finite (q : ℚ)
  | nan
  | inf (negative : Bool)
  deriving DecidableEq

/-- The quotient `total_score / tasks.size()` in exact arithmetic
(`double_div_ieee` is the rounded quotient). -/
def double_div (total_score : Int) (size : Nat) : DoubleVal :=
  if size = 0 then
    if total_score = 0 then DoubleVal.nan else DoubleVal.inf (decide (total_score < 0))
  else DoubleVal.finite ((total_score : ℚ) / (size : ℚ))

/-- The final reduction `for (double score : slots) total_score += score`, in
exact arithmetic (`total_of_ieee` is the rounded reduction). -/
def total_of (slots : List Int) : Int := slots.foldl (fun acc score => acc + score) 0

/-- Calculate overall result for a student, in exact arithmetic. Returns the
manager after the call and the result; `none` when the call has no defined behaviour (a thread count
below 1, or an out-of-range vector read). -/
def calculate_result (tm : TaskManager) (student : String) :
    Option (TaskManager × DoubleVal) :=
  if tm.num_threads ≤ 0 then none
  else
    let num_threads := tm.num_threads.toNat
    let slots := List.replicate num_threads (0 : Int)
    let access := map_index tm.scores student
    let scores' := access.1
    let num_tasks := min access.2.length tm.tasks.length
    let tasks_per_thread := num_tasks / num_threads
    match run_workers tm.tasks (map_index scores' student).2 num_threads num_tasks
        tasks_per_thread 0 num_threads slots with
    | none => none
    | some slots' =>
      some ({ tm with scores := scores' }, double_div (total_of slots') tm.tasks.length)

/-! ## Accessors -/

/-- Get scores for all students. -/
def get_scores (tm : TaskManager) : ScoreMap := tm.scores

/-- Get number of tasks. -/
def num_tasks (tm : TaskManager) : Int := (tm.tasks.length : Int)

/-- Get names of all tasks. -/
def get_task_names (tm : TaskManager) : List String := tm.tasks.map (fun task => task.name)

/-- Get maximum scores for all tasks. -/
def get_max_scores (tm : TaskManager) : List Int := tm.tasks.map (fun task => task.max_score)

/-- Get names of all students. -/
def get_student_names (tm : TaskManager) : List String := tm.scores.map (fun score => score.1)

/-- The search `find_if(tasks.begin(), tasks.end(), name == task)`, as the index
of the first match. -/
def find_task : List Task → String → Option Nat
  | [], _ => none
  | t :: rest, task =>
    if t.name = task then some 0
    else match find_task rest task with
      | none => none
      | some idx => some (idx + 1)

/-- Get score for a specific task and student; `-1` on each lookup failure. -/
def get_score (tm : TaskManager) (student task : String) : Int :=
  match find_task tm.tasks task with
  | none => -1
  | some task_index =>
    match map_find tm.scores student with
    | none => -1
    | some student_scores =>
      if task_index ≥ student_scores.length then -1
      else student_scores.getD task_index 0

/-! ## The demonstration of `main` -/

/-- The task list `main` registers: Task 1, Task 2, Task 3 with maximum scores
10, 8, 6. -/
def demo_tasks (num_threads : Int) : TaskManager :=
  add_task (add_task (add_task (TaskManager.new num_threads) "Task 1" 10) "Task 2" 8)
    "Task 3" 6

/-- The manager of `main` after its `add_task` and `add_scores` calls, for a
given number of worker threads (`main` uses 4). -/
def demo_manager (num_threads : Int) : TaskManager :=
  add_scores (add_scores (add_scores (add_scores (demo_tasks num_threads)
    "Student 1" [8, 7, 6]) "Student 2" [9, 5, 4]) "Student 3" [10, 9, 6])
    "Student 4" [7, 5, 6]

/-! ## The specification's reading of the aggregation -/

/-- Clamp of the specification: restrict `v` into `[lo, hi]`, a value below `lo`
forced to `lo` and a value above `hi` forced to `hi`. -/
def clamp (v lo hi : Int) : Int :=
  if v < lo then lo else if hi < v then hi else v

/-- The maximum score of task `i`. -/
def max_score_at (tasks : List Task) (i : Nat) : Int :=
  (tasks.map (fun t => t.max_score)).getD i 0

/-- The specification's numerator: the sum over `i` in
`[0, min(len(scores), len(tasks)))` of `clamp(scores[i], 0, tasks[i].max_score)`. -/
def clamped_sum (tasks : List Task) (scores : List Int) : Int :=
  ((List.range (min scores.length tasks.length)).map
    (fun i => clamp (scores.getD i 0) 0 (max_score_at tasks i))).sum

/-- The clamped sum over the index range `[j, j + count)`. -/
def chunk_sum (tasks : List Task) (scores : List Int) : Nat → Nat → Int
  | _, 0 => 0
  | j, count + 1 =>
    clamp (scores.getD j 0) 0 (max_score_at tasks j) + chunk_sum tasks scores (j + 1) count

/-- What one loop iteration at task index `j` adds to the slot of its worker:
the iteration is run on a fresh copy of the scores and a single zeroed slot. -/
def contribution (tasks : List Task) (student_scores : List Int) (j : Nat) : Option Int :=
  match worker_body tasks 0 (student_scores, [0]) j with
  | none => none
  | some st => some (total_of st.2)

/-! ## Sequences of calls -/

/-- A call of a public member function of the manager. -/
inductive Call where
  | add_task (name : String) (max_score : Int)
  | add_scores (student : String) (student_scores : List Int)
  | calculate_result (student : String)
  | get_score (student task : String)
  deriving DecidableEq, Repr

/-- The manager after one call; `none` when the call has no defined behaviour.
`get_score` is a `const` member: it returns a value and leaves the manager as
it is. -/
def step (tm : TaskManager) : Call → Option TaskManager
  | Call.add_task name max_score => some (add_task tm name max_score)
  | Call.add_scores student student_scores => some (add_scores tm student student_scores)
  | Call.calculate_result student =>
    match calculate_result tm student with
    | none => none
    | some r => some r.1
  | Call.get_score _ _ => some tm

/-- The manager after a sequence of calls. -/
def run (tm : TaskManager) : List Call → Option TaskManager
  | [] => some tm
  | c :: rest =>
    match step tm c with
    | none => none
    | some tm' => run tm' rest

/-- Is the call one of the two mutators `add_task`, `add_scores`? -/
def Call.is_setup : Call → Bool
  | Call.add_task _ _ => true
  | Call.add_scores _ _ => true
  | _ => false

/-- The calls of `main`, in order. -/
def demo_calls : List Call :=
  [Call.add_task "Task 1" 10, Call.add_task "Task 2" 8, Call.add_task "Task 3" 6,
    Call.add_scores "Student 1" [8, 7, 6], Call.add_scores "Student 2" [9, 5, 4],
    Call.add_scores "Student 3" [10, 9, 6], Call.add_scores "Student 4" [7, 5, 6],
    Call.get_score "Student 1" "Task 1", Call.get_score "Student 1" "Task 2",
    Call.get_score "Student 1" "Task 3", Call.calculate_result "Student 1",
    Call.calculate_result "Student 2", Call.calculate_result "Student 3"]

/-- A manager with one task of negative maximum score and one stored score:
`add_task("Task 1", -5)` then `add_scores("Student 1", {3})`, one worker. -/
def negative_max_manager : TaskManager :=
  add_scores (add_task (TaskManager.new 1) "Task 1" (-5)) "Student 1" [3]

/-- The three lookup failures of `get_score`: no task has the name; a task has
the name but the student has no record; both exist but the index of the (first)
task with the name is not below the length of the student's score vector. -/
def lookup_fails (tm : TaskManager) (student task : String) : Prop :=
  (∀ t ∈ tm.tasks, t.name ≠ task)
    ∨ ((∃ t ∈ tm.tasks, t.name = task) ∧ map_find tm.scores student = none)
    ∨ (∃ idx v, find_task tm.tasks task = some idx ∧ map_find tm.scores student = some v
        ∧ v.length ≤ idx)

/-- Every stored score is non-negative. -/
def stored_nonneg (tm : TaskManager) : Prop :=
  ∀ e ∈ tm.scores, ∀ x ∈ e.2, 0 ≤ x

/-- The tasks registered by the `add_task` calls of a sequence, in call order. -/
def added_tasks : List Call → List Task
  | [] => []
  | Call.add_task name max_score :: rest =>
    { name := name, max_score := max_score } :: added_tasks rest
  | _ :: rest => added_tasks rest

/-- Is the call an `add_task` call? -/
def Call.is_add_task : Call → Bool
  | Call.add_task _ _ => true
  | _ => false

/-- A manager whose first and third task share the name "Quiz":
`add_task("Quiz", 10)`, `add_task("Lab", 5)`, `add_task("Quiz", 7)`, then
`add_scores("Student 1", {1, 2, 3})`. -/
def duplicate_manager : TaskManager :=
  add_scores (add_task (add_task (add_task (TaskManager.new 1) "Quiz" 10) "Lab" 5) "Quiz" 7)
    "Student 1" [1, 2, 3]

/-- The student names of the accepted `add_scores` calls of a sequence (those
whose batch has no negative score), in call order. -/
def accepted_names : List Call → List String
  | [] => []
  | Call.add_scores student student_scores :: rest =>
    if has_negative student_scores then accepted_names rest
    else student :: accepted_names rest
  | _ :: rest => accepted_names rest

/-- The keys of the score map are in strictly ascending order. -/
def keys_ascending (m : ScoreMap) : Prop :=
  List.Pairwise (fun a b : String × List Int => a.1.data < b.1.data) m

/-! ## The aggregation in IEEE 754 double arithmetic

`calculate_result` above keeps the per-thread sums as exact integers. The
definitions of this section redo lines 49 to 87 with the rounding of the
`double` type (binary64, round to nearest, ties to even): every `+=` on a slot,
every `+=` of the final reduction and the final division round their exact
result to the nearest double. A slot only ever holds a rounded sum of `int`
values, which is an integer, so the slots stay `List Int`; the quotient is the
rational value of the returned double. Sums of `int` values over a vector are
far below `2^1024`, so no operation overflows to infinity. -/

/-- The integer nearest to `a / d`, the even one of the two when `a / d` lies
half-way between them (`d > 0`). -/
def round_half_even (a d : Nat) : Nat :=
  if 2 * (a % d) < d then a / d
  else if d < 2 * (a % d) then a / d + 1
  else if (a / d) % 2 = 0 then a / d
  else a / d + 1

/-- Rounding of `a / b` to a 53-bit significand on a grid no finer than 1: with
`2^k <= a / b < 2^(k+1)` the result is the multiple of `2^(k - 52)` (of 1 when
`k <= 52`) nearest to `a / b`, ties to the even multiple. -/
def round_mantissa (a b : Nat) : Nat :=
  round_half_even a (b * 2 ^ (Nat.log2 (a / b) - 52)) * 2 ^ (Nat.log2 (a / b) - 52)

/-- The double nearest to the integer `n`. -/
def round_int (n : Int) : Int :=
  if n < 0 then -((round_mantissa n.natAbs 1 : Nat) : Int)
  else ((round_mantissa n.natAbs 1 : Nat) : Int)

/-- The double nearest to `a / b` (`b > 0`), as a rational. Doubles are the
multiples of `2^(-1074)` with a 53-bit significand, so the quotient is rounded
in units of `2^(-1074)`. -/
def double_quotient (a : Int) (b : Nat) : ℚ :=
  if a < 0 then -(((round_mantissa (a.natAbs * 2 ^ 1074) b : Nat) : ℚ) / 2 ^ 1074)
  else ((round_mantissa (a.natAbs * 2 ^ 1074) b : Nat) : ℚ) / 2 ^ 1074

/-- `slots[i] += v` in double arithmetic: the exact sum is rounded to the nearest
double (`v` is an `int`, converted to `double` without rounding). -/
def add_at_ieee : List Int → Nat → Int → List Int
  | [], _, _ => []
  | x :: xs, 0, v => round_int (x + v) :: xs
  | x :: xs, i + 1, v => x :: add_at_ieee xs i v

/-- One iteration of a worker's loop at task index `j`, with the slot update in
double arithmetic. -/
def worker_body_ieee (tasks : List Task) (i : Nat) (st : List Int × List Int) (j : Nat) :
    Option (List Int × List Int) :=
  match st.1[j]? with
  | none => none
  | some s =>
    if s < 0 then
      some (st.1.set j 0, add_at_ieee st.2 i 0)
    else
      match tasks[j]? with
      | none => none
      | some t =>
        if s > t.max_score then
          some (st.1.set j t.max_score, add_at_ieee st.2 i t.max_score)
        else
          some (st.1, add_at_ieee st.2 i s)

/-- The loop of a worker, with `count` iterations left, in double arithmetic. -/
def worker_loop_ieee (tasks : List Task) (i : Nat) :
    Nat → Nat → List Int × List Int → Option (List Int × List Int)
  | _, 0, st => some st
  | j, count + 1, st =>
    match worker_body_ieee tasks i st j with
    | none => none
    | some st' => worker_loop_ieee tasks i (j + 1) count st'

/-- The body of worker thread `i` in double arithmetic. -/
def worker_ieee (tasks : List Task) (student_scores : List Int)
    (num_threads num_tasks tasks_per_thread i : Nat) (slots : List Int) :
    Option (List Int) :=
  let start := chunk_start tasks_per_thread i
  let stop := chunk_end num_threads num_tasks tasks_per_thread i
  match worker_loop_ieee tasks i start (stop - start) (student_scores, slots) with
  | none => none
  | some st => some st.2

/-- Workers `i, i+1, ..., i+count-1` run one after the other, in double
arithmetic. -/
def run_workers_ieee (tasks : List Task) (student_scores : List Int)
    (num_threads num_tasks tasks_per_thread : Nat) :
    Nat → Nat → List Int → Option (List Int)
  | _, 0, slots => some slots
  | i, count + 1, slots =>
    match worker_ieee tasks student_scores num_threads num_tasks tasks_per_thread i slots with
    | none => none
    | some slots' =>
      run_workers_ieee tasks student_scores num_threads num_tasks tasks_per_thread
        (i + 1) count slots'

/-- The final reduction `for (double score : slots) total_score += score` in
double arithmetic. -/
def total_of_ieee (slots : List Int) : Int :=
  slots.foldl (fun acc score => round_int (acc + score)) 0

/-- The quotient `total_score / tasks.size()` in double arithmetic: the size is
converted to `double`, and the exact quotient is rounded to the nearest double. -/
def double_div_ieee (total_score : Int) (size : Nat) : DoubleVal :=
  if round_mantissa size 1 = 0 then
    if total_score = 0 then DoubleVal.nan else DoubleVal.inf (decide (total_score < 0))
  else DoubleVal.finite (double_quotient total_score (round_mantissa size 1))

/-- Calculate overall result for a student, in double arithmetic. Returns the
manager after the call and the returned double; `none` when the call has no
defined behaviour (a thread count below 1, or an out-of-range vector read). -/
def calculate_result_ieee (tm : TaskManager) (student : String) :
    Option (TaskManager × DoubleVal) :=
  if tm.num_threads ≤ 0 then none
  else
    let num_threads := tm.num_threads.toNat
    let slots := List.replicate num_threads (0 : Int)
    let access := map_index tm.scores student
    let scores' := access.1
    let num_tasks := min access.2.length tm.tasks.length
    let tasks_per_thread := num_tasks / num_threads
    match run_workers_ieee tm.tasks (map_index scores' student).2 num_threads num_tasks
        tasks_per_thread 0 num_threads slots with
    | none => none
    | some slots' =>
      some ({ tm with scores := scores' }, double_div_ieee (total_of_ieee slots') tm.tasks.length)

/-- The sum of the absolute values of the clamped scores over the index range
`[j, j + count)`. -/
def abs_chunk_sum (tasks : List Task) (scores : List Int) : Nat → Nat → Int
  | _, 0 => 0
  | j, count + 1 =>
    |clamp (scores.getD j 0) 0 (max_score_at tasks j)|
      + abs_chunk_sum tasks scores (j + 1) count

/-- The sum of the absolute values of the clamped scores of a student: over `i`
in `[0, min(len(scores), len(tasks)))`, of `|clamp(scores[i], 0, tasks[i].max_score)|`. -/
def abs_clamped_sum (tasks : List Task) (scores : List Int) : Int :=
  abs_chunk_sum tasks scores 0 (min scores.length tasks.length)

/-- The value a slot holding `x` ends with after the loop iterations at the
indices `[j, j + count)`, in double arithmetic. -/
def accumulate_ieee (tasks : List Task) (scores : List Int) : Int → Nat → Nat → Int
  | x, _, 0 => x
  | x, j, count + 1 =>
    accumulate_ieee tasks scores
      (round_int (x + clamp (scores.getD j 0) 0 (max_score_at tasks j))) (j + 1) count

/-- Three tasks with maximum scores 10, 6, 4 and a student who scores the
maximum on each; one worker. -/
def thirds_manager : TaskManager :=
  add_scores (add_task (add_task (add_task (TaskManager.new 1) "Task 1" 10) "Task 2" 6)
    "Task 3" 4) "Student 1" [10, 6, 4]

/-- Six tasks with maximum score 10 each and a student with the three scores
10, 10, 9 (clamped sum 29); one worker. -/
def six_tasks_manager : TaskManager :=
  add_scores (add_task (add_task (add_task (add_task (add_task (add_task
    (TaskManager.new 1) "Task 1" 10) "Task 2" 10) "Task 3" 10) "Task 4" 10) "Task 5" 10)
    "Task 6" 10) "Student 1" [10, 10, 9]

/-- A manager with `count` tasks of the same maximum score and one student who
scores that maximum on every task. -/
def uniform_manager (count : Nat) (score : Int) (num_threads : Int) : TaskManager :=
  { tasks := List.replicate count { name := "Task", max_score := score },
    scores := [("Student 1", List.replicate count score)],
    num_threads := num_threads }

/-- 4194306 tasks with maximum score `2^31 - 1`, the largest `int`, and a student
who scores it on every task: the clamped sum `4194306 * (2^31 - 1)` is just above
`2^53`. -/
def large_manager (num_threads : Int) : TaskManager :=
  uniform_manager 4194306 2147483647 num_threads

/-! ## Lemmas on the per-thread sums -/

theorem add_at_length (slots : List Int) (i : Nat) (v : Int) :
    (add_at slots i v).length = slots.length := by
  induction slots generalizing i with
  | nil => rfl
  | cons x xs ih =>
    cases i with
    | zero => rfl
    | succ i => simp [add_at, ih]

theorem add_at_sum (slots : List Int) (i : Nat) (v : Int) (h : i < slots.length) :
    (add_at slots i v).sum = slots.sum + v := by
  induction slots generalizing i with
  | nil => simp at h
  | cons x xs ih =>
    cases i with
    | zero => simp [add_at]; ring
    | succ i =>
      have h' : i < xs.length := by simpa using h
      simp [add_at, ih i h']; ring

theorem add_at_add_at (slots : List Int) (i : Nat) (a b : Int) :
    add_at (add_at slots i a) i b = add_at slots i (a + b) := by
  induction slots generalizing i with
  | nil => rfl
  | cons x xs ih =>
    cases i with
    | zero => simp [add_at]; ring
    | succ i => simp [add_at, ih]

theorem add_at_zero (slots : List Int) (i : Nat) : add_at slots i 0 = slots := by
  induction slots generalizing i with
  | nil => rfl
  | cons x xs ih =>
    cases i with
    | zero => simp [add_at]
    | succ i => simp [add_at, ih]

theorem foldl_add_eq (slots : List Int) (acc : Int) :
    slots.foldl (fun acc score => acc + score) acc = acc + slots.sum := by
  induction slots generalizing acc with
  | nil => simp
  | cons x xs ih => simp [List.foldl_cons, ih]; ring

theorem total_of_eq_sum (slots : List Int) : total_of slots = slots.sum := by
  simp [total_of, foldl_add_eq]

/-! ## Lemmas on chunk sums -/

theorem max_score_at_eq (tasks : List Task) (j : Nat) (t : Task) (h : tasks[j]? = some t) :
    max_score_at tasks j = t.max_score := by
  simp [max_score_at, List.getD_eq_getElem?_getD, h]

theorem chunk_sum_set (tasks : List Task) (scores : List Int) (k : Nat) (c : Int)
    (j count : Nat) (h : k < j) :
    chunk_sum tasks (scores.set k c) j count = chunk_sum tasks scores j count := by
  induction count generalizing j with
  | zero => rfl
  | succ n ih =>
    have hne : k ≠ j := Nat.ne_of_lt h
    simp [chunk_sum, List.getD_eq_getElem?_getD, List.getElem?_set_ne hne,
      ih (j + 1) (Nat.lt_succ_of_lt h)]

theorem chunk_sum_add (tasks : List Task) (scores : List Int) (j a b : Nat) :
    chunk_sum tasks scores j (a + b)
      = chunk_sum tasks scores j a + chunk_sum tasks scores (j + a) b := by
  induction a generalizing j with
  | zero => simp [chunk_sum]
  | succ a ih =>
    have e : a + 1 + b = (a + b) + 1 := by omega
    have e' : j + (a + 1) = j + 1 + a := by omega
    rw [e, chunk_sum, chunk_sum, ih (j + 1), e']; ring

theorem chunk_sum_eq_range' (tasks : List Task) (scores : List Int) (j count : Nat) :
    chunk_sum tasks scores j count
      = ((List.range' j count).map
          (fun i => clamp (scores.getD i 0) 0 (max_score_at tasks i))).sum := by
  induction count generalizing j with
  | zero => rfl
  | succ n ih => simp [chunk_sum, List.range'_succ, ih (j + 1)]

theorem chunk_sum_zero_eq (tasks : List Task) (scores : List Int) :
    chunk_sum tasks scores 0 (min scores.length tasks.length) = clamped_sum tasks scores := by
  rw [chunk_sum_eq_range', clamped_sum, List.range_eq_range']

/-! ## The worker loop computes the clamped sum of its chunk -/

theorem worker_body_spec (tasks : List Task) (i j : Nat) (copy slots : List Int)
    (hj : j < copy.length) (ht : j < tasks.length) :
    ∃ copy', worker_body tasks i (copy, slots) j
        = some (copy', add_at slots i (clamp (copy.getD j 0) 0 (max_score_at tasks j)))
      ∧ (copy' = copy ∨ ∃ c, copy' = copy.set j c) := by
  have h1 : copy[j]? = some copy[j] := List.getElem?_eq_getElem hj
  have h2 : tasks[j]? = some tasks[j] := List.getElem?_eq_getElem ht
  have h3 : copy.getD j 0 = copy[j] := by simp [List.getD_eq_getElem?_getD, h1]
  have h4 : max_score_at tasks j = tasks[j].max_score := max_score_at_eq tasks j _ h2
  rw [h3, h4]
  unfold worker_body
  simp only [h1, h2]
  by_cases hneg : copy[j] < 0
  · exact ⟨copy.set j 0, by simp [hneg, clamp], Or.inr ⟨0, rfl⟩⟩
  · by_cases hbig : copy[j] > tasks[j].max_score
    · refine ⟨copy.set j tasks[j].max_score, ?_, Or.inr ⟨_, rfl⟩⟩
      have hbig' : tasks[j].max_score < copy[j] := hbig
      simp [hneg, hbig', clamp]
    · refine ⟨copy, ?_, Or.inl rfl⟩
      have hbig' : ¬ tasks[j].max_score < copy[j] := hbig
      simp [hneg, hbig', clamp]

theorem worker_loop_spec (tasks : List Task) (i : Nat) (count : Nat) :
    ∀ (j : Nat) (copy slots : List Int),
      j + count ≤ copy.length → j + count ≤ tasks.length →
      ∃ copy', worker_loop tasks i j count (copy, slots)
        = some (copy', add_at slots i (chunk_sum tasks copy j count)) := by
  induction count with
  | zero =>
    intro j copy slots _ _
    exact ⟨copy, by simp [worker_loop, chunk_sum, add_at_zero]⟩
  | succ n ih =>
    intro j copy slots hc ht
    obtain ⟨copy', hbody, hcopy⟩ :=
      worker_body_spec tasks i j copy slots (by omega) (by omega)
    have hlen : copy'.length = copy.length := by
      rcases hcopy with h | ⟨c, h⟩ <;> simp [h]
    have hsum : chunk_sum tasks copy' (j + 1) n = chunk_sum tasks copy (j + 1) n := by
      rcases hcopy with h | ⟨c, h⟩
      · rw [h]
      · rw [h]; exact chunk_sum_set tasks copy j c (j + 1) n (Nat.lt_succ_self j)
    obtain ⟨copy'', hloop⟩ := ih (j + 1) copy'
      (add_at slots i (clamp (copy.getD j 0) 0 (max_score_at tasks j))) (by omega) (by omega)
    refine ⟨copy'', ?_⟩
    simp only [worker_loop, hbody, hloop, hsum, add_at_add_at, chunk_sum]

theorem worker_spec (tasks : List Task) (student_scores : List Int)
    (num_threads num_tasks tasks_per_thread i : Nat) (slots : List Int)
    (hs : chunk_end num_threads num_tasks tasks_per_thread i ≤ student_scores.length)
    (ht : chunk_end num_threads num_tasks tasks_per_thread i ≤ tasks.length)
    (hle : chunk_start tasks_per_thread i
      ≤ chunk_end num_threads num_tasks tasks_per_thread i) :
    worker tasks student_scores num_threads num_tasks tasks_per_thread i slots
      = some (add_at slots i (chunk_sum tasks student_scores (chunk_start tasks_per_thread i)
          (chunk_end num_threads num_tasks tasks_per_thread i
            - chunk_start tasks_per_thread i))) := by
  obtain ⟨copy', h⟩ := worker_loop_spec tasks i
    (chunk_end num_threads num_tasks tasks_per_thread i - chunk_start tasks_per_thread i)
    (chunk_start tasks_per_thread i) student_scores slots (by omega) (by omega)
  simp [worker, h]

/-! ## Chunk bounds -/

theorem sub_split (m a q : Nat) (h : a + q ≤ m) : m - a = q + (m - (a + q)) := by
  omega

theorem chunk_bounds (num_threads num_tasks i : Nat) (hi : i < num_threads) :
    chunk_start (num_tasks / num_threads) i
        ≤ chunk_end num_threads num_tasks (num_tasks / num_threads) i
      ∧ chunk_end num_threads num_tasks (num_tasks / num_threads) i ≤ num_tasks := by
  have hmul : num_threads * (num_tasks / num_threads) ≤ num_tasks :=
    Nat.mul_div_le num_tasks num_threads
  have h1 : i * (num_tasks / num_threads) ≤ (i + 1) * (num_tasks / num_threads) :=
    Nat.mul_le_mul_right _ (Nat.le_succ i)
  have h2 : (i + 1) * (num_tasks / num_threads) ≤ num_threads * (num_tasks / num_threads) :=
    Nat.mul_le_mul_right _ hi
  unfold chunk_start chunk_end
  split_ifs with hlast
  · exact ⟨by omega, le_refl _⟩
  · exact ⟨h1, by omega⟩

/-- Running the workers `i, ..., num_threads - 1` adds to the total the clamped
sum of the index range `[i * q, num_tasks)` (nothing when no worker is left). -/
theorem run_workers_spec (tasks : List Task) (student_scores : List Int)
    (num_threads num_tasks : Nat)
    (hs : num_tasks ≤ student_scores.length) (ht : num_tasks ≤ tasks.length)
    (count : Nat) :
    ∀ (i : Nat) (slots : List Int), i + count = num_threads → slots.length = num_threads →
      ∃ slots', run_workers tasks student_scores num_threads num_tasks
          (num_tasks / num_threads) i count slots = some slots'
        ∧ slots'.length = num_threads
        ∧ slots'.sum = slots.sum + chunk_sum tasks student_scores
            (i * (num_tasks / num_threads))
            (if count = 0 then 0 else num_tasks - i * (num_tasks / num_threads)) := by
  induction count with
  | zero =>
    intro i slots _ hlen
    exact ⟨slots, rfl, hlen, by simp [chunk_sum]⟩
  | succ n ih =>
    intro i slots hi hlen
    have hilt : i < num_threads := by omega
    obtain ⟨hb1, hb2⟩ := chunk_bounds num_threads num_tasks i hilt
    have hw := worker_spec tasks student_scores num_threads num_tasks
      (num_tasks / num_threads) i slots (by omega) (by omega) hb1
    obtain ⟨slots', hrun, hlen', hsum'⟩ := ih (i + 1)
      (add_at slots i (chunk_sum tasks student_scores (chunk_start (num_tasks / num_threads) i)
        (chunk_end num_threads num_tasks (num_tasks / num_threads) i
          - chunk_start (num_tasks / num_threads) i)))
      (by omega) (by rw [add_at_length]; exact hlen)
    refine ⟨slots', ?_, hlen', ?_⟩
    · simp only [run_workers, hw, hrun]
    · rw [hsum', add_at_sum _ _ _ (by omega)]
      have hmul : num_threads * (num_tasks / num_threads) ≤ num_tasks :=
        Nat.mul_div_le num_tasks num_threads
      by_cases hn : n = 0
      · have hlast : i = num_threads - 1 := by omega
        simp [hn, chunk_sum, chunk_start, chunk_end, hlast]
      · have hnotlast : ¬ i = num_threads - 1 := by omega
        have h2 : (i + 1 + 1) * (num_tasks / num_threads)
            ≤ num_threads * (num_tasks / num_threads) :=
          Nat.mul_le_mul_right _ (by omega)
        have e0 : (i + 1 + 1) * (num_tasks / num_threads)
            = i * (num_tasks / num_threads) + num_tasks / num_threads
              + num_tasks / num_threads := by ring
        have e1 : (i + 1) * (num_tasks / num_threads)
            = i * (num_tasks / num_threads) + num_tasks / num_threads := by ring
        rw [e0] at h2
        have e2 : num_tasks - i * (num_tasks / num_threads)
            = num_tasks / num_threads
              + (num_tasks - (i * (num_tasks / num_threads) + num_tasks / num_threads)) :=
          sub_split _ _ _ (le_trans (le_trans (Nat.le_add_right _ _) h2) hmul)
        have e3 : i * (num_tasks / num_threads) + num_tasks / num_threads
            - i * (num_tasks / num_threads) = num_tasks / num_threads :=
          Nat.add_sub_cancel_left _ _
        simp only [hn, if_false, Nat.succ_ne_zero, chunk_start, chunk_end, hnotlast, e1]
        rw [e2, chunk_sum_add, e3]; ring

/-! ## Lemmas on the score map -/

theorem map_find_assign_same (m : ScoreMap) (key : String) (value : List Int) :
    map_find (map_assign m key value) key = some value := by
  induction m with
  | nil => simp [map_assign, map_find]
  | cons e rest ih =>
    obtain ⟨k, v⟩ := e
    unfold map_assign
    by_cases h1 : key.data < k.data
    · simp [h1, map_find]
    · by_cases h2 : key = k
      · simp [h1, h2, map_find]
      · simp [h1, h2, map_find, ih]

theorem map_find_assign_other (m : ScoreMap) (key other : String) (value : List Int)
    (h : other ≠ key) :
    map_find (map_assign m key value) other = map_find m other := by
  induction m with
  | nil => simp [map_assign, map_find, h]
  | cons e rest ih =>
    obtain ⟨k, v⟩ := e
    unfold map_assign
    by_cases h1 : key.data < k.data
    · simp [h1, map_find, h]
    · by_cases h2 : key = k
      · subst h2; simp [h1, map_find, h]
      · simp [h1, h2, map_find, ih]

theorem map_index_of_find (m : ScoreMap) (key : String) (v : List Int)
    (h : map_find m key = some v) : map_index m key = (m, v) := by
  simp [map_index, h]

theorem map_index_find (m : ScoreMap) (key : String) :
    map_find (map_index m key).1 key = some (map_index m key).2 := by
  unfold map_index
  cases h : map_find m key with
  | none => simp [map_find_assign_same]
  | some v => simp [h]

theorem map_index_again (m : ScoreMap) (key : String) :
    (map_index (map_index m key).1 key).2 = (map_index m key).2 := by
  rw [map_index_of_find _ _ _ (map_index_find m key)]

/-! ## The result of the aggregation -/

/-- With at least one worker thread, the aggregation is defined, stores what the
read through `scores[student]` leaves in the map, and returns the clamped sum
of the read vector over the number of tasks. -/
theorem calculate_result_eq (tm : TaskManager) (student : String)
    (h : 1 ≤ tm.num_threads) :
    calculate_result tm student
      = some ({ tm with scores := (map_index tm.scores student).1 },
          double_div (clamped_sum tm.tasks (map_index tm.scores student).2)
            tm.tasks.length) := by
  have hpos : ¬ tm.num_threads ≤ 0 := by omega
  have hn : 1 ≤ tm.num_threads.toNat := by omega
  obtain ⟨slots', hrun, _, hsum⟩ :=
    run_workers_spec tm.tasks (map_index tm.scores student).2 tm.num_threads.toNat
      (min (map_index tm.scores student).2.length tm.tasks.length)
      (Nat.min_le_left _ _) (Nat.min_le_right _ _)
      tm.num_threads.toNat 0 (List.replicate tm.num_threads.toNat 0)
      (by omega) (by simp)
  have hne : ¬ tm.num_threads.toNat = 0 := by omega
  simp only [hne, if_false, Nat.zero_mul, Nat.sub_zero, chunk_sum_zero_eq] at hsum
  have hzero : (List.replicate tm.num_threads.toNat (0 : Int)).sum = 0 := by simp
  rw [hzero, zero_add] at hsum
  unfold calculate_result
  simp only [hpos, if_false, map_index_again, hrun, total_of_eq_sum, hsum]

theorem double_div_finite (total : Int) (size : Nat) (h : size ≠ 0) :
    double_div total size = DoubleVal.finite ((total : ℚ) / (size : ℚ)) := by
  simp [double_div, h]

/-! ## Lemmas on `add_scores` and `get_score` -/

theorem has_negative_iff (batch : List Int) :
    has_negative batch = true ↔ ∃ s ∈ batch, s < 0 := by
  induction batch with
  | nil => simp [has_negative]
  | cons x xs ih =>
    unfold has_negative
    by_cases hx : x < 0
    · simp [hx]
    · simp [hx, ih]

theorem has_negative_false_of_valid (batch : List Int) (h : ∀ s ∈ batch, 0 ≤ s) :
    has_negative batch = false := by
  cases hn : has_negative batch with
  | false => rfl
  | true =>
    obtain ⟨s, hs, hneg⟩ := (has_negative_iff batch).mp hn
    have := h s hs
    omega

theorem add_scores_of_valid (tm : TaskManager) (student : String) (batch : List Int)
    (hvalid : ∀ s ∈ batch, 0 ≤ s) :
    add_scores tm student batch
      = { tm with scores := map_assign tm.scores student batch } := by
  simp [add_scores, has_negative_false_of_valid batch hvalid]

theorem add_scores_of_negative (tm : TaskManager) (student : String) (batch : List Int)
    (hneg : ∃ s ∈ batch, s < 0) : add_scores tm student batch = tm := by
  simp [add_scores, (has_negative_iff batch).mpr hneg]

theorem find_task_none_iff (tasks : List Task) (task : String) :
    find_task tasks task = none ↔ ∀ t ∈ tasks, t.name ≠ task := by
  induction tasks with
  | nil => simp [find_task]
  | cons t rest ih =>
    unfold find_task
    by_cases h : t.name = task
    · simp [h]
    · cases hr : find_task rest task with
      | none => simp [h, ← ih, hr]
      | some idx =>
        have : ¬ ∀ t ∈ rest, t.name ≠ task := by
          rw [← ih, hr]; simp
        simp [h, this]

/-- A found index is in range, names the task, and no earlier task has the
name. -/
theorem find_task_some (tasks : List Task) (task : String) (idx : Nat)
    (h : find_task tasks task = some idx) :
    ∃ t, tasks[idx]? = some t ∧ t.name = task
      ∧ ∀ k < idx, ∀ u, tasks[k]? = some u → u.name ≠ task := by
  induction tasks generalizing idx with
  | nil => simp [find_task] at h
  | cons t rest ih =>
    unfold find_task at h
    by_cases hn : t.name = task
    · simp only [hn, if_true, Option.some.injEq] at h
      subst h
      exact ⟨t, by simp, hn, by intro k hk; omega⟩
    · simp only [hn, if_false] at h
      cases hr : find_task rest task with
      | none => simp [hr] at h
      | some i =>
        simp only [hr, Option.some.injEq] at h
        subst h
        obtain ⟨u, hu, hname, hfirst⟩ := ih i hr
        refine ⟨u, by simpa using hu, hname, ?_⟩
        intro k hk w hw
        cases k with
        | zero =>
          simp only [List.getElem?_cons_zero, Option.some.injEq] at hw
          subst hw; exact hn
        | succ k =>
          exact hfirst k (by omega) w (by simpa using hw)

/-- With pairwise distinct task names, the search for the name of task `i`
finds index `i`. -/
theorem find_task_of_nodup (tasks : List Task) (i : Nat) (t : Task)
    (hnodup : (tasks.map (fun u => u.name)).Nodup) (hi : tasks[i]? = some t) :
    find_task tasks t.name = some i := by
  induction tasks generalizing i with
  | nil => simp at hi
  | cons u rest ih =>
    simp only [List.map_cons, List.nodup_cons] at hnodup
    cases i with
    | zero =>
      simp only [List.getElem?_cons_zero, Option.some.injEq] at hi
      subst hi
      simp [find_task]
    | succ i =>
      have hi' : rest[i]? = some t := by simpa using hi
      have hmem : t.name ∈ rest.map (fun u => u.name) :=
        List.mem_map.mpr ⟨t, List.getElem?_mem hi', rfl⟩
      have hne : ¬ u.name = t.name := by
        intro he; exact hnodup.1 (he ▸ hmem)
      simp [find_task, hne, ih i hnodup.2 hi']

theorem get_score_of_lookup_fails (tm : TaskManager) (student task : String)
    (h : lookup_fails tm student task) : get_score tm student task = -1 := by
  unfold get_score
  rcases h with h | ⟨⟨t, ht, hname⟩, hnone⟩ | ⟨idx, v, hfind, hsome, hlen⟩
  · simp [(find_task_none_iff tm.tasks task).mpr h]
  · cases hf : find_task tm.tasks task with
    | none => rfl
    | some idx => simp [hnone]
  · have hge : idx ≥ v.length := hlen
    simp [hfind, hsome, hge]

theorem get_score_of_found (tm : TaskManager) (student task : String) (idx : Nat)
    (v : List Int) (hfind : find_task tm.tasks task = some idx)
    (hsome : map_find tm.scores student = some v) (hlt : idx < v.length) :
    get_score tm student task = v[idx] := by
  have hnot : ¬ idx ≥ v.length := by omega
  simp only [get_score, hfind, hsome, hnot, if_false]
  simp [List.getD_eq_getElem?_getD, List.getElem?_eq_getElem hlt]

/-- A lookup either fails in one of the three ways or finds a stored score. -/
theorem lookup_fails_or_found (tm : TaskManager) (student task : String) :
    lookup_fails tm student task
      ∨ ∃ idx v, ∃ h : idx < v.length, find_task tm.tasks task = some idx
          ∧ map_find tm.scores student = some v ∧ get_score tm student task = v[idx] := by
  cases hf : find_task tm.tasks task with
  | none => exact Or.inl (Or.inl ((find_task_none_iff tm.tasks task).mp hf))
  | some idx =>
    obtain ⟨t, ht, hname, _⟩ := find_task_some tm.tasks task idx hf
    cases hs : map_find tm.scores student with
    | none => exact Or.inl (Or.inr (Or.inl ⟨⟨t, List.getElem?_mem ht, hname⟩, hs⟩))
    | some v =>
      by_cases hlt : idx < v.length
      · exact Or.inr ⟨idx, v, hlt, rfl, rfl, get_score_of_found tm student task idx v hf hs hlt⟩
      · exact Or.inl (Or.inr (Or.inr ⟨idx, v, hf, hs, by omega⟩))

/-! ## The non-negativity invariant of the stored scores -/

theorem mem_map_assign (m : ScoreMap) (key : String) (value : List Int)
    (e : String × List Int) (h : e ∈ map_assign m key value) :
    e ∈ m ∨ e = (key, value) := by
  induction m with
  | nil =>
    simp only [map_assign, List.mem_singleton] at h
    exact Or.inr h
  | cons hd rest ih =>
    obtain ⟨k, v⟩ := hd
    unfold map_assign at h
    by_cases h1 : key.data < k.data
    · simp only [h1, if_true, List.mem_cons] at h
      rcases h with h | h | h
      · exact Or.inr h
      · exact Or.inl (by simp [h])
      · exact Or.inl (by simp [h])
    · by_cases h2 : key = k
      · subst h2
        simp only [h1, if_true, if_false, List.mem_cons] at h
        rcases h with h | h
        · exact Or.inr h
        · exact Or.inl (by simp [h])
      · simp only [h1, h2, if_false, List.mem_cons] at h
        rcases h with h | h
        · exact Or.inl (by simp [h])
        · rcases ih h with h' | h'
          · exact Or.inl (by simp [h'])
          · exact Or.inr h'

theorem map_find_mem (m : ScoreMap) (key : String) (v : List Int)
    (h : map_find m key = some v) : (key, v) ∈ m := by
  induction m with
  | nil => simp [map_find] at h
  | cons hd rest ih =>
    obtain ⟨k, w⟩ := hd
    unfold map_find at h
    by_cases hk : key = k
    · simp only [hk, if_true, Option.some.injEq] at h
      simp [hk, h]
    · simp only [hk, if_false] at h
      exact List.mem_cons_of_mem _ (ih h)

theorem calculate_result_state (tm : TaskManager) (student : String)
    (r : TaskManager × DoubleVal) (h : calculate_result tm student = some r) :
    r.1 = { tm with scores := (map_index tm.scores student).1 } := by
  by_cases hn : tm.num_threads ≤ 0
  · simp [calculate_result, hn] at h
  · rw [calculate_result_eq tm student (by omega)] at h
    simp only [Option.some.injEq] at h
    rw [← h]

theorem step_stored_nonneg (tm tm' : TaskManager) (c : Call)
    (hinv : stored_nonneg tm) (hstep : step tm c = some tm') : stored_nonneg tm' := by
  cases c with
  | add_task name max_score =>
    simp only [step, Option.some.injEq] at hstep
    subst hstep; exact hinv
  | add_scores student batch =>
    simp only [step, Option.some.injEq] at hstep
    subst hstep
    unfold add_scores
    cases hneg : has_negative batch with
    | true => simpa using hinv
    | false =>
      have hvalid : ∀ x ∈ batch, 0 ≤ x := by
        intro x hx
        by_contra hlt
        have : has_negative batch = true :=
          (has_negative_iff batch).mpr ⟨x, hx, by omega⟩
        rw [hneg] at this; exact Bool.noConfusion this
      intro e he x hx
      simp only [Bool.false_eq_true, if_false] at he
      rcases mem_map_assign _ _ _ _ he with h | h
      · exact hinv e h x hx
      · rw [h] at hx; exact hvalid x hx
  | calculate_result student =>
    unfold step at hstep
    cases hr : calculate_result tm student with
    | none => simp [hr] at hstep
    | some r =>
      simp only [hr, Option.some.injEq] at hstep
      have hst := calculate_result_state tm student r hr
      rw [← hstep, hst]
      intro e he x hx
      simp only [map_index] at he
      cases hf : map_find tm.scores student with
      | some v =>
        simp only [hf] at he
        exact hinv e he x hx
      | none =>
        simp only [hf] at he
        rcases mem_map_assign _ _ _ _ he with h | h
        · exact hinv e h x hx
        · rw [h] at hx; simp at hx
  | get_score student task =>
    simp only [step, Option.some.injEq] at hstep
    subst hstep; exact hinv

theorem run_stored_nonneg (calls : List Call) :
    ∀ (tm tm' : TaskManager), stored_nonneg tm → run tm calls = some tm' →
      stored_nonneg tm' := by
  induction calls with
  | nil =>
    intro tm tm' hinv hrun
    simp only [run, Option.some.injEq] at hrun
    subst hrun; exact hinv
  | cons c rest ih =>
    intro tm tm' hinv hrun
    unfold run at hrun
    cases hs : step tm c with
    | none => simp [hs] at hrun
    | some tm1 =>
      simp only [hs] at hrun
      exact ih tm1 tm' (step_stored_nonneg tm tm1 c hinv hs) hrun

theorem new_stored_nonneg (n : Int) : stored_nonneg (TaskManager.new n) := by
  intro e he
  simp [TaskManager.new] at he

/-! ## Bounds on the clamped values -/

theorem clamp_bounds (v m : Int) (hm : 0 ≤ m) : 0 ≤ clamp v 0 m ∧ clamp v 0 m ≤ m := by
  unfold clamp
  split_ifs <;> constructor <;> omega

theorem max_score_at_nonneg (tasks : List Task) (h : ∀ t ∈ tasks, 0 ≤ t.max_score)
    (i : Nat) : 0 ≤ max_score_at tasks i := by
  cases ht : tasks[i]? with
  | none => simp [max_score_at, List.getD_eq_getElem?_getD, ht]
  | some t =>
    rw [max_score_at_eq tasks i t ht]
    exact h t (List.getElem?_mem ht)

theorem clamped_sum_nonneg (tasks : List Task) (scores : List Int)
    (h : ∀ t ∈ tasks, 0 ≤ t.max_score) : 0 ≤ clamped_sum tasks scores := by
  unfold clamped_sum
  apply List.sum_nonneg
  intro x hx
  obtain ⟨i, _, rfl⟩ := List.mem_map.mp hx
  exact (clamp_bounds _ _ (max_score_at_nonneg tasks h i)).1

theorem contribution_eq (tasks : List Task) (student_scores : List Int) (j : Nat)
    (hj : j < student_scores.length) (ht : j < tasks.length) :
    contribution tasks student_scores j
      = some (clamp (student_scores.getD j 0) 0 (max_score_at tasks j)) := by
  obtain ⟨copy', hbody, _⟩ := worker_body_spec tasks 0 j student_scores [0] hj ht
  simp [contribution, hbody, add_at, total_of]

/-! ## Claims -/

/-- C2: for every manager state, student name and score batch that contains a
negative value, `add_scores(student, batch)` leaves the manager as it was: the
score map is the same, so a stored vector is still the stored vector and a
student with no record still has none, and the task list is the same. -/
theorem add_scores_rejects_negative (tm : TaskManager) (student : String)
    (batch : List Int) (hneg : ∃ s ∈ batch, s < 0) :
    add_scores tm student batch = tm
      ∧ (add_scores tm student batch).scores = tm.scores
      ∧ (∀ name : String, map_find (add_scores tm student batch).scores name
          = map_find tm.scores name)
      ∧ get_student_names (add_scores tm student batch) = get_student_names tm
      ∧ (add_scores tm student batch).tasks = tm.tasks := by
  rw [add_scores_of_negative tm student batch hneg]
  exact ⟨rfl, rfl, fun _ => rfl, rfl, rfl⟩

/-- Witness of C2: a batch with a negative entry for the stored "Student 1" and
for the unknown "Student 9" of the demonstration manager. -/
theorem add_scores_rejects_negative_witness :
    (∃ s ∈ ([5, -1, 3] : List Int), s < 0)
      ∧ add_scores (demo_manager 4) "Student 1" [5, -1, 3] = demo_manager 4
      ∧ map_find (add_scores (demo_manager 4) "Student 1" [5, -1, 3]).scores "Student 1"
          = some [8, 7, 6]
      ∧ map_find (add_scores (demo_manager 4) "Student 9" [5, -1, 3]).scores "Student 9"
          = none :=
  ⟨by decide,
    (add_scores_rejects_negative (demo_manager 4) "Student 1" [5, -1, 3] (by decide)).1,
    ((add_scores_rejects_negative (demo_manager 4) "Student 1" [5, -1, 3]
      (by decide)).2.2.1 "Student 1").trans (by decide),
    ((add_scores_rejects_negative (demo_manager 4) "Student 9" [5, -1, 3]
      (by decide)).2.2.1 "Student 9").trans (by decide)⟩

/-- C3: for every manager state, student name and score batch with all entries
`>= 0`, after `add_scores(student, batch)` the record stored for that student is
exactly `batch`, the record of every other student is unchanged, and the task
list (and the worker count) is unchanged. -/
theorem add_scores_stores_batch (tm : TaskManager) (student : String)
    (batch : List Int) (hvalid : ∀ s ∈ batch, 0 ≤ s) :
    map_find (add_scores tm student batch).scores student = some batch
      ∧ (∀ other : String, other ≠ student →
          map_find (add_scores tm student batch).scores other = map_find tm.scores other)
      ∧ (add_scores tm student batch).tasks = tm.tasks
      ∧ (add_scores tm student batch).num_threads = tm.num_threads := by
  rw [add_scores_of_valid tm student batch hvalid]
  exact ⟨map_find_assign_same _ _ _, fun other hne => map_find_assign_other _ _ _ _ hne,
    rfl, rfl⟩

/-- Witness of C3: overwriting the three stored scores of "Student 2" with a
one-entry batch leaves exactly that batch, and "Student 1" as it was. -/
theorem add_scores_stores_batch_witness :
    (∀ s ∈ ([2] : List Int), 0 ≤ s)
      ∧ map_find (demo_manager 4).scores "Student 2" = some [9, 5, 4]
      ∧ map_find (add_scores (demo_manager 4) "Student 2" [2]).scores "Student 2" = some [2]
      ∧ map_find (add_scores (demo_manager 4) "Student 2" [2]).scores "Student 1"
          = some [8, 7, 6] :=
  ⟨by decide, by decide,
    (add_scores_stores_batch (demo_manager 4) "Student 2" [2] (by decide)).1,
    ((add_scores_stores_batch (demo_manager 4) "Student 2" [2] (by decide)).2.1
      "Student 1" (by decide)).trans (by decide)⟩

/-- C4: `get_score` returns the stored raw value, not the clamped one: for every
task list with pairwise distinct names, every batch `v` with all entries `>= 0`
and every index `i` below both `len(v)` and `len(tasks)`, after
`add_scores(s, v)` the call `get_score(s, tasks[i].name)` returns `v[i]`,
whatever `tasks[i].max_score` is. -/
theorem get_score_returns_raw (tm : TaskManager) (s : String) (v : List Int) (i : Nat)
    (hdistinct : (tm.tasks.map (fun t => t.name)).Nodup) (hvalid : ∀ x ∈ v, 0 ≤ x)
    (hv : i < v.length) (ht : i < tm.tasks.length) :
    get_score (add_scores tm s v) s tm.tasks[i].name = v[i] := by
  have hstored : map_find (map_assign tm.scores s v) s = some v :=
    map_find_assign_same _ _ _
  have hfind : find_task tm.tasks tm.tasks[i].name = some i :=
    find_task_of_nodup tm.tasks i _ hdistinct (List.getElem?_eq_getElem ht)
  have hnot : ¬ i ≥ v.length := by omega
  rw [add_scores_of_valid tm s v hvalid]
  simp only [get_score, hfind, hstored, hnot, if_false]
  simp [List.getD_eq_getElem?_getD, List.getElem?_eq_getElem hv]

/-- Witness of C4 on the demonstration data: tasks with maximum scores 10, 8, 6
and "Student 1" scores 8, 7, 6 give 8, 7, 6 for Task 1, Task 2, Task 3; the
stored 9 of "Student 3" for Task 2 (maximum 8) is returned unclamped. -/
theorem get_score_returns_raw_witness :
    ((demo_manager 4).tasks.map (fun t => t.name)).Nodup
      ∧ (∀ x ∈ ([8, 7, 6] : List Int), 0 ≤ x)
      ∧ get_score (demo_manager 4) "Student 1" "Task 1" = 8
      ∧ get_score (demo_manager 4) "Student 1" "Task 2" = 7
      ∧ get_score (demo_manager 4) "Student 1" "Task 3" = 6
      ∧ get_score (demo_manager 4) "Student 3" "Task 2" = 9 := by
  have e1 : add_scores (demo_manager 4) "Student 1" [8, 7, 6] = demo_manager 4 := by decide
  have e3 : add_scores (demo_manager 4) "Student 3" [10, 9, 6] = demo_manager 4 := by decide
  have h0 := get_score_returns_raw (demo_manager 4) "Student 1" [8, 7, 6] 0
    (by decide) (by decide) (by decide) (by decide)
  have h1 := get_score_returns_raw (demo_manager 4) "Student 1" [8, 7, 6] 1
    (by decide) (by decide) (by decide) (by decide)
  have h2 := get_score_returns_raw (demo_manager 4) "Student 1" [8, 7, 6] 2
    (by decide) (by decide) (by decide) (by decide)
  have h3 := get_score_returns_raw (demo_manager 4) "Student 3" [10, 9, 6] 1
    (by decide) (by decide) (by decide) (by decide)
  rw [e1] at h0 h1 h2
  rw [e3] at h3
  exact ⟨by decide, by decide, h0, h1, h2, h3⟩

/-- C5: for every manager state, `get_score(student, task)` returns the sentinel
`-1` in each of the three failure cases (no task has the name `task`; a task has
the name but `student` has no record; both exist but the index of the task is
`>=` the length of the student's score vector), and the call, a `const` member,
leaves the manager as it is. -/
theorem get_score_failure_sentinel (tm : TaskManager) (student task : String)
    (hfail : lookup_fails tm student task) :
    get_score tm student task = -1
      ∧ step tm (Call.get_score student task) = some tm :=
  ⟨get_score_of_lookup_fails tm student task hfail, rfl⟩

/-- Witness of C5, one lookup per failure case: an unknown task, an unknown
student, and a student whose one-entry record stops before Task 3. -/
theorem get_score_failure_sentinel_witness :
    get_score (demo_manager 4) "Student 1" "Task 7" = -1
      ∧ get_score (demo_manager 4) "Student 7" "Task 1" = -1
      ∧ get_score (add_scores (demo_manager 4) "Student 5" [4]) "Student 5" "Task 3" = -1 :=
  ⟨(get_score_failure_sentinel (demo_manager 4) "Student 1" "Task 7"
      (Or.inl (by decide))).1,
    (get_score_failure_sentinel (demo_manager 4) "Student 7" "Task 1"
      (Or.inr (Or.inl ⟨⟨⟨"Task 1", 10⟩, by decide, rfl⟩, by decide⟩))).1,
    (get_score_failure_sentinel (add_scores (demo_manager 4) "Student 5" [4])
      "Student 5" "Task 3"
      (Or.inr (Or.inr ⟨2, [4], by decide, by decide, by decide⟩))).1⟩

/-- C6: the sentinel is unambiguous: in every state reached from an empty
manager by a sequence of `add_task`, `add_scores`, `calculate_result` (and
`get_score`) calls, `get_score(student, task)` returns `-1` if and only if one of
the three failure conditions holds, and a successful lookup returns a value
`>= 0`. -/
theorem get_score_sentinel_iff (n : Int) (calls : List Call) (tm : TaskManager)
    (hreach : run (TaskManager.new n) calls = some tm) (student task : String) :
    (get_score tm student task = -1 ↔ lookup_fails tm student task)
      ∧ (¬ lookup_fails tm student task → 0 ≤ get_score tm student task) := by
  have hinv : stored_nonneg tm :=
    run_stored_nonneg calls _ tm (new_stored_nonneg n) hreach
  have hpos : ¬ lookup_fails tm student task → 0 ≤ get_score tm student task := by
    intro hnf
    rcases lookup_fails_or_found tm student task with hf | ⟨idx, v, hlt, _, hs, hget⟩
    · exact absurd hf hnf
    · rw [hget]
      exact hinv (student, v) (map_find_mem _ _ _ hs) v[idx] (List.getElem_mem hlt)
  refine ⟨⟨?_, get_score_of_lookup_fails tm student task⟩, hpos⟩
  intro heq
  by_contra hnf
  have := hpos hnf
  omega

/-- Witness of C6: the state `main` reaches, with a successful lookup (8, not
the sentinel) and a failed one. -/
theorem get_score_sentinel_iff_witness :
    run (TaskManager.new 4) demo_calls = some (demo_manager 4)
      ∧ ¬ lookup_fails (demo_manager 4) "Student 1" "Task 1"
      ∧ 0 ≤ get_score (demo_manager 4) "Student 1" "Task 1"
      ∧ lookup_fails (demo_manager 4) "Student 7" "Task 1" := by
  have hreach : run (TaskManager.new 4) demo_calls = some (demo_manager 4) := by decide
  have h1 := get_score_sentinel_iff 4 demo_calls (demo_manager 4) hreach "Student 1" "Task 1"
  have h7 := get_score_sentinel_iff 4 demo_calls (demo_manager 4) hreach "Student 7" "Task 1"
  have hnf : ¬ lookup_fails (demo_manager 4) "Student 1" "Task 1" := by
    intro hf
    have := h1.1.mpr hf
    revert this
    decide
  exact ⟨hreach, hnf, h1.2 hnf, h7.1.mp (by decide)⟩

/-- C7, as stated, fails: for `num_tasks = 3` and `num_threads = 4` the 4th
worker (index 3) has `start = 0` and `end = 3`, not an empty chunk, and on the
scores 8, 7, 6 of "Student 1" it adds 21 to its slot. -/
theorem last_worker_chunk_not_empty :
    chunk_start (3 / 4) 3 = 0 ∧ chunk_end 4 3 (3 / 4) 3 = 3
      ∧ chunk_start (3 / 4) 3 ≠ chunk_end 4 3 (3 / 4) 3
      ∧ worker (demo_manager 4).tasks [8, 7, 6] 4 3 (3 / 4) 3 [0, 0, 0, 0]
          = some [0, 0, 0, 21] := by
  decide

/-- C7, amended: for `num_tasks = 3` and `num_threads = 4` the chunk size
`3 / 4` is 0; the first three workers (indices 0, 1, 2) get an empty chunk
(`start == end == 0`) and leave the per-thread sums as they are; the 4th worker
(index 3), the last one, gets the whole range `[0, 3)` and adds the clamped sum
of all three tasks to its slot. -/
theorem chunks_three_tasks_four_threads (tasks : List Task) (student_scores : List Int)
    (slots : List Int) :
    (∀ i, i < 3 → chunk_start (3 / 4) i = 0 ∧ chunk_end 4 3 (3 / 4) i = 0
        ∧ worker tasks student_scores 4 3 (3 / 4) i slots = some slots)
      ∧ chunk_start (3 / 4) 3 = 0 ∧ chunk_end 4 3 (3 / 4) 3 = 3
      ∧ (3 ≤ student_scores.length → 3 ≤ tasks.length →
          worker tasks student_scores 4 3 (3 / 4) 3 slots
            = some (add_at slots 3 (chunk_sum tasks student_scores 0 3))) := by
  refine ⟨?_, by decide, by decide, ?_⟩
  · intro i hi
    have hs : chunk_start (3 / 4) i = 0 := by simp [chunk_start]
    have he : chunk_end 4 3 (3 / 4) i = 0 := by
      have : ¬ i = 3 := by omega
      simp [chunk_end, this]
    refine ⟨hs, he, ?_⟩
    unfold worker
    simp only [hs, he, Nat.sub_self, worker_loop]
  · intro h1 h2
    have h := worker_spec tasks student_scores 4 3 (3 / 4) 3 slots
      (by simpa [chunk_end] using h1) (by simpa [chunk_end] using h2)
      (by simp [chunk_start, chunk_end])
    simpa [chunk_start, chunk_end] using h

/-- C8, as stated, fails: after `add_task("Task 1", -5)` and
`add_scores("Student 1", {3})` the stored score 3 is clamped to the maximum `-5`:
the contribution added to the worker slot is `-5` and, with one task,
`calculate_result("Student 1")` is `-5`. -/
theorem negative_max_score_result :
    run (TaskManager.new 1) [Call.add_task "Task 1" (-5), Call.add_scores "Student 1" [3]]
        = some negative_max_manager
      ∧ negative_max_manager.tasks.length = 1
      ∧ contribution negative_max_manager.tasks [3] 0 = some (-5)
      ∧ calculate_result negative_max_manager "Student 1"
          = some (negative_max_manager, DoubleVal.finite (-5)) := by
  refine ⟨by decide, by decide, by decide, ?_⟩
  rw [calculate_result_eq _ _ (by decide)]
  have h1 : map_index negative_max_manager.scores "Student 1"
      = (negative_max_manager.scores, [3]) := by decide
  have h2 : clamped_sum negative_max_manager.tasks [3] = -5 := by decide
  have h3 : negative_max_manager.tasks.length = 1 := by decide
  rw [h1]
  simp only [h2, h3]
  simp [double_div]

/-- C8, amended: in every state reached from an empty manager by `add_task` and
`add_scores` calls in which every task's `max_score` is `>= 0`, every per-task
contribution that `calculate_result` adds to a worker slot lies in
`[0, tasks[j].max_score]`, and with `num_threads >= 1` and at least one task
`calculate_result` returns a value `>= 0`. -/
theorem clamped_contribution_bounds (n : Int) (calls : List Call) (tm : TaskManager)
    (_hsetup : ∀ c ∈ calls, c.is_setup = true)
    (_hreach : run (TaskManager.new n) calls = some tm)
    (hmax : ∀ t ∈ tm.tasks, 0 ≤ t.max_score) :
    (∀ (student : String) (v : List Int) (j : Nat) (t : Task),
        map_find tm.scores student = some v → j < v.length → tm.tasks[j]? = some t →
        ∃ c, contribution tm.tasks v j = some c ∧ 0 ≤ c ∧ c ≤ t.max_score)
      ∧ (1 ≤ tm.num_threads → tm.tasks ≠ [] → ∀ student : String,
          ∃ tm' q, calculate_result tm student = some (tm', DoubleVal.finite q) ∧ 0 ≤ q) := by
  constructor
  · intro student v j t _ hj ht
    have hlt : j < tm.tasks.length := (List.getElem?_eq_some.mp ht).1
    refine ⟨_, contribution_eq tm.tasks v j hj hlt, ?_⟩
    rw [max_score_at_eq tm.tasks j t ht]
    exact clamp_bounds _ _ (hmax t (List.getElem?_mem ht))
  · intro hthreads htasks student
    have hlen : tm.tasks.length ≠ 0 := by
      intro h0; exact htasks (List.length_eq_zero.mp h0)
    refine ⟨{ tm with scores := (map_index tm.scores student).1 },
      (clamped_sum tm.tasks (map_index tm.scores student).2 : ℚ) / (tm.tasks.length : ℚ),
      ?_, ?_⟩
    · rw [calculate_result_eq tm student hthreads, double_div_finite _ _ hlen]
    · apply div_nonneg
      · exact_mod_cast clamped_sum_nonneg tm.tasks _ hmax
      · exact_mod_cast Nat.zero_le _

/-- Witness of C8 (amended): the demonstration state, reached by `main`'s
`add_task` and `add_scores` calls; the 9 of "Student 3" contributes the maximum 8
of Task 2. -/
theorem clamped_contribution_bounds_witness :
    (∀ c ∈ demo_calls.take 7, c.is_setup = true)
      ∧ run (TaskManager.new 4) (demo_calls.take 7) = some (demo_manager 4)
      ∧ (∀ t ∈ (demo_manager 4).tasks, 0 ≤ t.max_score)
      ∧ (∃ c, contribution (demo_manager 4).tasks [10, 9, 6] 1 = some c ∧ 0 ≤ c ∧ c ≤ 8) :=
  ⟨by decide, by decide, by decide,
    (clamped_contribution_bounds 4 (demo_calls.take 7) (demo_manager 4)
      (by decide) (by decide) (by decide)).1 "Student 3" [10, 9, 6] 1 ⟨"Task 2", 8⟩
      (by decide) (by decide) (by decide)⟩

/-- C9 fails on the code: `calculate_result` reads through `scores[student]`,
which inserts an empty record for a name that has none. On the demonstration
manager, `calculate_result("Student 5")` returns 0 and leaves a fifth student
in the map, so `get_student_names` grows from four names to five. -/
theorem calculate_result_inserts_record :
    map_find (demo_manager 4).scores "Student 5" = none
      ∧ get_student_names (demo_manager 4)
          = ["Student 1", "Student 2", "Student 3", "Student 4"]
      ∧ calculate_result (demo_manager 4) "Student 5"
          = some ({ demo_manager 4 with
              scores := (demo_manager 4).scores ++ [("Student 5", [])] },
            DoubleVal.finite 0)
      ∧ get_student_names
          { demo_manager 4 with scores := (demo_manager 4).scores ++ [("Student 5", [])] }
          = ["Student 1", "Student 2", "Student 3", "Student 4", "Student 5"] := by
  refine ⟨by decide, by decide, ?_, by decide⟩
  rw [calculate_result_eq _ _ (by decide)]
  have h1 : map_index (demo_manager 4).scores "Student 5"
      = ((demo_manager 4).scores ++ [("Student 5", [])], []) := by decide
  have h2 : clamped_sum (demo_manager 4).tasks [] = 0 := by decide
  have h3 : (demo_manager 4).tasks.length = 3 := by decide
  rw [h1]
  simp only [h2, h3]
  simp [double_div]

/-- C10: on the demonstration data (4 workers; tasks with maximum scores 10, 8,
6; Student 1 = {8,7,6}, Student 2 = {9,5,4}, Student 3 = {10,9,6}) the clamped
sums are 21, 18 and 24 (the 9 is clamped to 8), and `calculate_result` returns
7, 6 and 8, leaving the manager unchanged. -/
theorem demo_results :
    clamped_sum (demo_manager 4).tasks [8, 7, 6] = 21
      ∧ clamped_sum (demo_manager 4).tasks [9, 5, 4] = 18
      ∧ clamped_sum (demo_manager 4).tasks [10, 9, 6] = 10 + 8 + 6
      ∧ calculate_result (demo_manager 4) "Student 1"
          = some (demo_manager 4, DoubleVal.finite 7)
      ∧ calculate_result (demo_manager 4) "Student 2"
          = some (demo_manager 4, DoubleVal.finite 6)
      ∧ calculate_result (demo_manager 4) "Student 3"
          = some (demo_manager 4, DoubleVal.finite 8) := by
  have h1 : map_index (demo_manager 4).scores "Student 1"
      = ((demo_manager 4).scores, [8, 7, 6]) := by decide
  have h2 : map_index (demo_manager 4).scores "Student 2"
      = ((demo_manager 4).scores, [9, 5, 4]) := by decide
  have h3 : map_index (demo_manager 4).scores "Student 3"
      = ((demo_manager 4).scores, [10, 9, 6]) := by decide
  have s1 : clamped_sum (demo_manager 4).tasks [8, 7, 6] = 21 := by decide
  have s2 : clamped_sum (demo_manager 4).tasks [9, 5, 4] = 18 := by decide
  have s3 : clamped_sum (demo_manager 4).tasks [10, 9, 6] = 24 := by decide
  have hlen : (demo_manager 4).tasks.length = 3 := by decide
  refine ⟨s1, s2, s3, ?_, ?_, ?_⟩
  · rw [calculate_result_eq _ _ (by decide), h1]
    simp only [s1, hlen]
    simp [double_div]; norm_num
  · rw [calculate_result_eq _ _ (by decide), h2]
    simp only [s2, hlen]
    simp [double_div]; norm_num
  · rw [calculate_result_eq _ _ (by decide), h3]
    simp only [s3, hlen]
    simp [double_div]; norm_num

/-! ## One more task: the numerator stays, the divisor grows -/

theorem max_score_at_append (tasks : List Task) (t : Task) (i : Nat)
    (h : i < tasks.length) : max_score_at (tasks ++ [t]) i = max_score_at tasks i := by
  have h1 : (tasks ++ [t])[i]? = tasks[i]? := List.getElem?_append_left h
  have h2 : tasks[i]? = some tasks[i] := List.getElem?_eq_getElem h
  rw [max_score_at_eq (tasks ++ [t]) i tasks[i] (h1.trans h2),
    max_score_at_eq tasks i tasks[i] h2]

theorem clamped_sum_append (tasks : List Task) (t : Task) (scores : List Int)
    (h : scores.length ≤ tasks.length) :
    clamped_sum (tasks ++ [t]) scores = clamped_sum tasks scores := by
  have e1 : min scores.length (tasks ++ [t]).length = scores.length := by
    simp only [List.length_append, List.length_singleton]; omega
  have e2 : min scores.length tasks.length = scores.length := by omega
  unfold clamped_sum
  rw [e1, e2]
  congr 1
  apply List.map_congr_left
  intro i hi
  rw [max_score_at_append tasks t i (by have := List.mem_range.mp hi; omega)]

/-! ## The task list along a sequence of calls -/

theorem add_scores_tasks (tm : TaskManager) (student : String) (batch : List Int) :
    (add_scores tm student batch).tasks = tm.tasks := by
  unfold add_scores
  cases has_negative batch <;> rfl

theorem step_tasks (tm tm' : TaskManager) (c : Call) (h : step tm c = some tm') :
    tm'.tasks = tm.tasks ++ added_tasks [c] := by
  cases c with
  | add_task name max_score =>
    simp only [step, Option.some.injEq] at h
    subst h; rfl
  | add_scores student batch =>
    simp only [step, Option.some.injEq] at h
    subst h
    simp [added_tasks, add_scores_tasks]
  | calculate_result student =>
    unfold step at h
    cases hr : calculate_result tm student with
    | none => simp [hr] at h
    | some r =>
      simp only [hr, Option.some.injEq] at h
      rw [← h, calculate_result_state tm student r hr]
      simp [added_tasks]
  | get_score student task =>
    simp only [step, Option.some.injEq] at h
    subst h
    simp [added_tasks]

theorem added_tasks_cons (c : Call) (rest : List Call) :
    added_tasks (c :: rest) = added_tasks [c] ++ added_tasks rest := by
  cases c <;> simp [added_tasks]

theorem run_tasks (calls : List Call) :
    ∀ (tm tm' : TaskManager), run tm calls = some tm' →
      tm'.tasks = tm.tasks ++ added_tasks calls := by
  induction calls with
  | nil =>
    intro tm tm' h
    simp only [run, Option.some.injEq] at h
    subst h; simp [added_tasks]
  | cons c rest ih =>
    intro tm tm' h
    unfold run at h
    cases hs : step tm c with
    | none => simp [hs] at h
    | some tm1 =>
      simp only [hs] at h
      rw [ih tm1 tm' h, step_tasks tm tm1 c hs, added_tasks_cons c rest, List.append_assoc]

theorem added_tasks_length (calls : List Call) :
    (added_tasks calls).length = calls.countP Call.is_add_task := by
  induction calls with
  | nil => rfl
  | cons c rest ih =>
    cases c <;> simp [added_tasks, Call.is_add_task, ih]

/-- C12: tasks are append-only and ordered by insertion: in the state reached
from an empty manager by any sequence of calls, the task list is the list of
the `add_task` calls in call order, `num_tasks()` is the number of `add_task`
calls, `get_task_names()` and `get_max_scores()` have that length and entry `i`
of each belongs to the `i`-th added task, and `add_scores` and `get_score` leave
all three as they are. -/
theorem tasks_append_only (n : Int) (calls : List Call) (tm : TaskManager)
    (hreach : run (TaskManager.new n) calls = some tm) :
    tm.tasks = added_tasks calls
      ∧ num_tasks tm = ((calls.countP Call.is_add_task : Nat) : Int)
      ∧ (get_task_names tm).length = calls.countP Call.is_add_task
      ∧ (get_max_scores tm).length = calls.countP Call.is_add_task
      ∧ (∀ (i : Nat) (t : Task), (added_tasks calls)[i]? = some t →
          (get_task_names tm)[i]? = some t.name
            ∧ (get_max_scores tm)[i]? = some t.max_score)
      ∧ (∀ (student : String) (batch : List Int),
          num_tasks (add_scores tm student batch) = num_tasks tm
            ∧ get_task_names (add_scores tm student batch) = get_task_names tm
            ∧ get_max_scores (add_scores tm student batch) = get_max_scores tm)
      ∧ (∀ student task : String, step tm (Call.get_score student task) = some tm) := by
  have htasks : tm.tasks = added_tasks calls := by
    have h := run_tasks calls _ tm hreach
    simpa [TaskManager.new] using h
  refine ⟨htasks, ?_, ?_, ?_, ?_, ?_, fun _ _ => rfl⟩
  · simp [num_tasks, htasks, added_tasks_length]
  · simp [get_task_names, htasks, added_tasks_length]
  · simp [get_max_scores, htasks, added_tasks_length]
  · intro i t hi
    simp [get_task_names, get_max_scores, htasks, hi]
  · intro student batch
    simp [num_tasks, get_task_names, get_max_scores, add_scores_tasks]

/-- Witness of C12: the calls of `main` register Task 1, Task 2, Task 3 with
maximum scores 10, 8, 6, in that order. -/
theorem tasks_append_only_witness :
    run (TaskManager.new 4) demo_calls = some (demo_manager 4)
      ∧ num_tasks (demo_manager 4) = 3
      ∧ get_task_names (demo_manager 4) = ["Task 1", "Task 2", "Task 3"]
      ∧ get_max_scores (demo_manager 4) = [10, 8, 6]
      ∧ (demo_manager 4).tasks = added_tasks demo_calls :=
  ⟨by decide, by decide, by decide, by decide,
    (tasks_append_only 4 demo_calls (demo_manager 4) (by decide)).1⟩

/-! ## The chunks partition the index range -/

theorem chunk_end_inner (n m q i : Nat) (h : i + 1 < n) :
    chunk_end n m q i = (i + 1) * q := by
  have hne : ¬ i = n - 1 := by omega
  simp [chunk_end, hne]

theorem chunk_end_last (n m q : Nat) : chunk_end n m q (n - 1) = m := by
  simp [chunk_end]

theorem sub_of_sum (m a q r : Nat) (h : a + q + r = m) : m - a = q + r := by
  omega

theorem last_chunk_size (n m : Nat) (hn : 1 ≤ n) :
    m - (n - 1) * (m / n) = m / n + m % n := by
  obtain ⟨k, rfl⟩ : ∃ k, n = k + 1 := ⟨n - 1, by omega⟩
  have h1 : (k + 1) * (m / (k + 1)) + m % (k + 1) = m := Nat.div_add_mod m (k + 1)
  have h2 : (k + 1) * (m / (k + 1)) = k * (m / (k + 1)) + m / (k + 1) := Nat.succ_mul _ _
  rw [h2] at h1
  exact sub_of_sum m _ _ _ h1

/-- An index below `m` lies in the chunk of some worker, for any chunk size `q`. -/
theorem index_in_chunk_of_size (n m q k : Nat) (hn : 1 ≤ n) (hk : k < m) :
    ∃ i, i < n ∧ chunk_start q i ≤ k ∧ k < chunk_end n m q i := by
  have hdiv : k / q * q ≤ k := Nat.div_mul_le_self k q
  by_cases hq : 0 < q
  · have hsucc : k < q * (k / q + 1) := Nat.lt_mul_div_succ k hq
    generalize k / q = e at hdiv hsucc
    by_cases hlt : e + 1 < n
    · refine ⟨e, by omega, hdiv, ?_⟩
      rw [chunk_end_inner n m q e hlt, Nat.mul_comm]
      exact hsucc
    · refine ⟨n - 1, by omega, ?_, by rw [chunk_end_last]; exact hk⟩
      have hge : n - 1 ≤ e := by omega
      exact le_trans (Nat.mul_le_mul_right _ hge) hdiv
  · have h0 : q = 0 := by omega
    refine ⟨n - 1, by omega, ?_, by rw [chunk_end_last]; exact hk⟩
    simp [chunk_start, h0]

/-- C13: for every `num_threads = n >= 1` and `num_tasks = m >= 0`, with
`q = m / n` the worker chunks are `start_i = i*q`, `end_i = (i+1)*q` for
`i < n-1` and `end_(n-1) = m`; they are contiguous (`end_i = start_(i+1)`),
pairwise disjoint, and an index lies in some chunk exactly when it is in
`[0, m)`; every chunk but the last has size `q` and the last has size
`q + (m mod n)`. -/
theorem chunks_partition (n m : Nat) (hn : 1 ≤ n) :
    (∀ i, i < n → chunk_start (m / n) i = i * (m / n))
      ∧ (∀ i, i + 1 < n → chunk_end n m (m / n) i = (i + 1) * (m / n)
          ∧ chunk_end n m (m / n) i = chunk_start (m / n) (i + 1)
          ∧ chunk_end n m (m / n) i - chunk_start (m / n) i = m / n)
      ∧ chunk_start (m / n) 0 = 0
      ∧ chunk_end n m (m / n) (n - 1) = m
      ∧ chunk_end n m (m / n) (n - 1) - chunk_start (m / n) (n - 1) = m / n + m % n
      ∧ (∀ i, i < n → chunk_start (m / n) i ≤ chunk_end n m (m / n) i)
      ∧ (∀ i j, i < j → j < n → chunk_end n m (m / n) i ≤ chunk_start (m / n) j)
      ∧ (∀ k, k < m ↔ ∃ i, i < n ∧ chunk_start (m / n) i ≤ k
          ∧ k < chunk_end n m (m / n) i) := by
  refine ⟨fun _ _ => rfl, ?_, by simp [chunk_start], chunk_end_last n m _, ?_, ?_, ?_, ?_⟩
  · intro i hi
    refine ⟨chunk_end_inner n m _ i hi, chunk_end_inner n m _ i hi, ?_⟩
    rw [chunk_end_inner n m _ i hi, chunk_start, Nat.succ_mul]
    exact Nat.add_sub_cancel_left _ _
  · rw [chunk_end_last, chunk_start]
    exact last_chunk_size n m hn
  · intro i hi
    exact (chunk_bounds n m i hi).1
  · intro i j hij hj
    rw [chunk_end_inner n m _ i (by omega), chunk_start]
    exact Nat.mul_le_mul_right _ hij
  · intro k
    constructor
    · exact index_in_chunk_of_size n m (m / n) k hn
    · rintro ⟨i, hi, _, hlt⟩
      exact lt_of_lt_of_le hlt (chunk_bounds n m i hi).2

/-- Witness of C13: 7 tasks on 3 threads give the chunks `[0,2)`, `[2,4)`,
`[4,7)`: sizes 2, 2 and `2 + 7 mod 3 = 3`. -/
theorem chunks_partition_witness :
    (1 : Nat) ≤ 3
      ∧ chunk_start (7 / 3) 0 = 0 ∧ chunk_end 3 7 (7 / 3) 0 = 2
      ∧ chunk_start (7 / 3) 1 = 2 ∧ chunk_end 3 7 (7 / 3) 1 = 4
      ∧ chunk_start (7 / 3) 2 = 4 ∧ chunk_end 3 7 (7 / 3) 2 = 7
      ∧ chunk_end 3 7 (7 / 3) (3 - 1) - chunk_start (7 / 3) (3 - 1) = 7 / 3 + 7 % 3 :=
  ⟨by decide, by decide, by decide, by decide, by decide, by decide, by decide,
    (chunks_partition 3 7 (by decide)).2.2.2.2.1⟩

/-! ## Workers write disjoint slots -/

/-- The worker of a valid thread index adds the clamped sum of its chunk to its
slot. -/
theorem worker_eq_add_at (tasks : List Task) (student_scores : List Int) (n m i : Nat)
    (slots : List Int) (hs : m ≤ student_scores.length) (ht : m ≤ tasks.length)
    (hi : i < n) :
    worker tasks student_scores n m (m / n) i slots
      = some (add_at slots i (chunk_sum tasks student_scores (chunk_start (m / n) i)
          (chunk_end n m (m / n) i - chunk_start (m / n) i))) := by
  obtain ⟨h1, h2⟩ := chunk_bounds n m i hi
  exact worker_spec tasks student_scores n m (m / n) i slots (by omega) (by omega) h1

/-- C15: index safety of the aggregation. For every `num_threads = n >= 1`,
every task list and every score vector, with
`num_tasks = min(len(scores), len(tasks))` each worker's bounds satisfy
`start <= end <= num_tasks`, every index `j` in `[start, end)` is below both
`len(student_scores)` and `len(tasks)` (both reads succeed), the worker runs
to completion without an out-of-range read, and so `calculate_result` is
defined for every manager with at least one worker thread. -/
theorem aggregation_index_safe (tasks : List Task) (student_scores : List Int)
    (n : Nat) (hn : 1 ≤ n) :
    (∀ i, i < n →
        chunk_start (min student_scores.length tasks.length / n) i
            ≤ chunk_end n (min student_scores.length tasks.length)
                (min student_scores.length tasks.length / n) i
          ∧ chunk_end n (min student_scores.length tasks.length)
                (min student_scores.length tasks.length / n) i
              ≤ min student_scores.length tasks.length
          ∧ (∀ j, chunk_start (min student_scores.length tasks.length / n) i ≤ j →
              j < chunk_end n (min student_scores.length tasks.length)
                    (min student_scores.length tasks.length / n) i →
              j < student_scores.length ∧ j < tasks.length
                ∧ (∃ s, student_scores[j]? = some s) ∧ (∃ t, tasks[j]? = some t))
          ∧ (∀ slots : List Int, ∃ slots',
              worker tasks student_scores n (min student_scores.length tasks.length)
                (min student_scores.length tasks.length / n) i slots = some slots'))
      ∧ (∀ (tm : TaskManager) (student : String), tm.tasks = tasks →
          tm.num_threads = (n : Int) → ∃ r, calculate_result tm student = some r) := by
  constructor
  · intro i hi
    obtain ⟨h1, h2⟩ := chunk_bounds n (min student_scores.length tasks.length) i hi
    refine ⟨h1, h2, ?_, ?_⟩
    · intro j _ hj
      have hjs : j < student_scores.length := by omega
      have hjt : j < tasks.length := by omega
      exact ⟨hjs, hjt, ⟨_, List.getElem?_eq_getElem hjs⟩, ⟨_, List.getElem?_eq_getElem hjt⟩⟩
    · intro slots
      exact ⟨_, worker_eq_add_at tasks student_scores n _ i slots
        (Nat.min_le_left _ _) (Nat.min_le_right _ _) hi⟩
  · intro tm student _ hthreads
    exact ⟨_, calculate_result_eq tm student (by omega)⟩

/-- Witness of C15: 2 workers on the three demonstration tasks and a score
vector of five entries: the chunks are `[0,1)` and `[1,3)`, inside both vectors. -/
theorem aggregation_index_safe_witness :
    (1 : Nat) ≤ 2
      ∧ chunk_start (min ([1, 2, 3, 4, 5] : List Int).length (demo_manager 2).tasks.length / 2) 1
          ≤ chunk_end 2 (min ([1, 2, 3, 4, 5] : List Int).length (demo_manager 2).tasks.length)
              (min ([1, 2, 3, 4, 5] : List Int).length (demo_manager 2).tasks.length / 2) 1
      ∧ chunk_end 2 (min ([1, 2, 3, 4, 5] : List Int).length (demo_manager 2).tasks.length)
            (min ([1, 2, 3, 4, 5] : List Int).length (demo_manager 2).tasks.length / 2) 1
          ≤ min ([1, 2, 3, 4, 5] : List Int).length (demo_manager 2).tasks.length
      ∧ chunk_end 2 (min ([1, 2, 3, 4, 5] : List Int).length (demo_manager 2).tasks.length)
            (min ([1, 2, 3, 4, 5] : List Int).length (demo_manager 2).tasks.length / 2) 1 = 3 :=
  ⟨by decide,
    ((aggregation_index_safe (demo_manager 2).tasks [1, 2, 3, 4, 5] 2 (by decide)).1 1
      (by decide)).1,
    ((aggregation_index_safe (demo_manager 2).tasks [1, 2, 3, 4, 5] 2 (by decide)).1 1
      (by decide)).2.1,
    by decide⟩

/-! ## The clamped sum, task by task -/

theorem chunk_sum_shift (t : Task) (tasks : List Task) (s : Int) (scores : List Int)
    (count : Nat) :
    ∀ j, chunk_sum (t :: tasks) (s :: scores) (j + 1) count = chunk_sum tasks scores j count := by
  induction count with
  | zero => intro j; rfl
  | succ c ih =>
    intro j
    simp only [chunk_sum, ih (j + 1)]
    simp [max_score_at]

theorem clamped_sum_cons (t : Task) (tasks : List Task) (s : Int) (scores : List Int) :
    clamped_sum (t :: tasks) (s :: scores)
      = clamp s 0 t.max_score + clamped_sum tasks scores := by
  rw [← chunk_sum_zero_eq, ← chunk_sum_zero_eq]
  have e : min (s :: scores).length (t :: tasks).length
      = min scores.length tasks.length + 1 := by
    simp only [List.length_cons]; omega
  rw [e, chunk_sum, chunk_sum_shift]
  simp [max_score_at]

theorem clamped_sum_nil_tasks (scores : List Int) : clamped_sum [] scores = 0 := by
  simp [clamped_sum]

theorem clamped_sum_nil_scores (tasks : List Task) : clamped_sum tasks [] = 0 := by
  simp [clamped_sum]

theorem clamp_mono (a b m : Int) (h : a ≤ b) (hm : 0 ≤ m) : clamp a 0 m ≤ clamp b 0 m := by
  unfold clamp
  split_ifs <;> omega

theorem max_scores_sum_nonneg (tasks : List Task) (h : ∀ t ∈ tasks, 0 ≤ t.max_score) :
    0 ≤ (tasks.map (fun t => t.max_score)).sum := by
  apply List.sum_nonneg
  intro x hx
  obtain ⟨t, ht, rfl⟩ := List.mem_map.mp hx
  exact h t ht

theorem clamped_sum_le_max (tasks : List Task) (h : ∀ t ∈ tasks, 0 ≤ t.max_score) :
    ∀ scores : List Int, clamped_sum tasks scores ≤ (tasks.map (fun t => t.max_score)).sum := by
  induction tasks with
  | nil => intro scores; simp [clamped_sum_nil_tasks]
  | cons t rest ih =>
    intro scores
    have ht : 0 ≤ t.max_score := h t (List.mem_cons_self _ _)
    have hrest : ∀ u ∈ rest, 0 ≤ u.max_score := fun u hu => h u (List.mem_cons_of_mem _ hu)
    cases scores with
    | nil =>
      rw [clamped_sum_nil_scores]
      exact max_scores_sum_nonneg _ h
    | cons s ss =>
      rw [clamped_sum_cons]
      have h1 := (clamp_bounds s t.max_score ht).2
      have h2 := ih hrest ss
      simp only [List.map_cons, List.sum_cons]
      omega

theorem clamped_sum_set_mono (tasks : List Task) (h : ∀ t ∈ tasks, 0 ≤ t.max_score) :
    ∀ (scores : List Int) (k : Nat) (x : Int), scores.getD k 0 ≤ x → k < scores.length →
      clamped_sum tasks scores ≤ clamped_sum tasks (scores.set k x) := by
  induction tasks with
  | nil => intro scores k x _ _; simp [clamped_sum_nil_tasks]
  | cons t rest ih =>
    intro scores k x hx hk
    have ht : 0 ≤ t.max_score := h t (List.mem_cons_self _ _)
    have hrest : ∀ u ∈ rest, 0 ≤ u.max_score := fun u hu => h u (List.mem_cons_of_mem _ hu)
    cases scores with
    | nil => simp at hk
    | cons s ss =>
      cases k with
      | zero =>
        have hs : s ≤ x := by simpa using hx
        simp only [List.set_cons_zero, clamped_sum_cons]
        have := clamp_mono s x t.max_score hs ht
        omega
      | succ k =>
        have hx' : ss.getD k 0 ≤ x := by simpa using hx
        have hk' : k < ss.length := by simpa using hk
        simp only [List.set_cons_succ, clamped_sum_cons]
        have := ih hrest ss k x hx' hk'
        omega

/-! ## Duplicate task names -/

/-- The search finds the smallest index whose task has the name. -/
theorem find_task_first (tasks : List Task) (name : String) :
    ∀ (i : Nat) (t : Task), tasks[i]? = some t → t.name = name →
      (∀ k, k < i → ∀ u, tasks[k]? = some u → u.name ≠ name) →
      find_task tasks name = some i := by
  induction tasks with
  | nil => intro i t hi; simp at hi
  | cons u rest ih =>
    intro i t hi hname hfirst
    cases i with
    | zero =>
      simp only [List.getElem?_cons_zero, Option.some.injEq] at hi
      subst hi
      simp [find_task, hname]
    | succ i =>
      have hu : ¬ u.name = name := hfirst 0 (Nat.succ_pos i) u (by simp)
      have hi' : rest[i]? = some t := by simpa using hi
      have hfirst' : ∀ k, k < i → ∀ w, rest[k]? = some w → w.name ≠ name := by
        intro k hk w hw
        exact hfirst (k + 1) (by omega) w (by simpa using hw)
      simp [find_task, hu, ih i t hi' hname hfirst']

theorem get_score_at_first (tm : TaskManager) (student name : String) (i : Nat)
    (v : List Int) (hfind : find_task tm.tasks name = some i)
    (hstored : map_find tm.scores student = some v) :
    get_score tm student name = if i < v.length then v.getD i 0 else -1 := by
  by_cases hlt : i < v.length
  · have hnot : ¬ i ≥ v.length := by omega
    simp [get_score, hfind, hstored, hnot, hlt]
  · have hge : i ≥ v.length := by omega
    simp [get_score, hfind, hstored, hge, hlt]

/-- C17: when tasks share a name, `get_score(student, name)` resolves the name
to the first-inserted task with that name: with `i` the smallest index such that
`tasks[i].name == name` it returns the student's score at index `i`, or `-1` if
the student's vector is shorter than `i + 1`; the scores at other indices, those
of later duplicates included, do not influence the value returned for that
name. -/
theorem get_score_first_duplicate (tm : TaskManager) (student name : String) (i : Nat)
    (t : Task) (v : List Int) (hi : tm.tasks[i]? = some t) (hname : t.name = name)
    (hfirst : ∀ k, k < i → ∀ u, tm.tasks[k]? = some u → u.name ≠ name)
    (hstored : map_find tm.scores student = some v) :
    get_score tm student name = (if i < v.length then v.getD i 0 else -1)
      ∧ (∀ (j : Nat) (y : Int), j ≠ i → (∀ s ∈ v.set j y, 0 ≤ s) →
          get_score (add_scores tm student (v.set j y)) student name
            = get_score tm student name) := by
  have hfind : find_task tm.tasks name = some i :=
    find_task_first tm.tasks name i t hi hname hfirst
  refine ⟨get_score_at_first tm student name i v hfind hstored, ?_⟩
  intro j y hj hvalid
  have hadd := add_scores_of_valid tm student (v.set j y) hvalid
  have hfind' : find_task (add_scores tm student (v.set j y)).tasks name = some i := by
    rw [add_scores_tasks]; exact hfind
  have hstored' : map_find (add_scores tm student (v.set j y)).scores student
      = some (v.set j y) := by
    rw [hadd]; exact map_find_assign_same _ _ _
  rw [get_score_at_first _ student name i _ hfind' hstored',
    get_score_at_first tm student name i v hfind hstored]
  simp [List.getD_eq_getElem?_getD, List.getElem?_set_ne hj]

/-- Witness of C17: tasks "Quiz", "Lab", "Quiz" and the scores 1, 2, 3:
`get_score("Student 1", "Quiz")` is the score 1 at index 0, and stays 1 when the
score at the later duplicate's index 2 is changed to 9. -/
theorem get_score_first_duplicate_witness :
    duplicate_manager.tasks[0]? = some ⟨"Quiz", 10⟩
      ∧ duplicate_manager.tasks[2]? = some ⟨"Quiz", 7⟩
      ∧ map_find duplicate_manager.scores "Student 1" = some [1, 2, 3]
      ∧ get_score duplicate_manager "Student 1" "Quiz" = 1
      ∧ get_score (add_scores duplicate_manager "Student 1" ([1, 2, 3].set 2 9))
          "Student 1" "Quiz" = 1 := by
  have h := get_score_first_duplicate duplicate_manager "Student 1" "Quiz" 0
    ⟨"Quiz", 10⟩ [1, 2, 3] (by decide) rfl (fun k hk => absurd hk (Nat.not_lt_zero k))
    (by decide)
  have h1 : get_score duplicate_manager "Student 1" "Quiz" = 1 := h.1.trans (by decide)
  exact ⟨by decide, by decide, by decide, h1, (h.2 2 9 (by decide) (by decide)).trans h1⟩

/-! ## The score map stays sorted, and holds exactly the accepted names -/

theorem map_assign_ascending (m : ScoreMap) (key : String) (value : List Int)
    (h : keys_ascending m) : keys_ascending (map_assign m key value) := by
  induction m with
  | nil => simp [map_assign, keys_ascending]
  | cons hd rest ih =>
    obtain ⟨k, v⟩ := hd
    unfold keys_ascending at h ih ⊢
    obtain ⟨hhead, hrest⟩ := List.pairwise_cons.mp h
    unfold map_assign
    by_cases h1 : key.data < k.data
    · simp only [h1, if_true]
      refine List.pairwise_cons.mpr ⟨?_, h⟩
      intro e he
      rcases List.mem_cons.mp he with he | he
      · rw [he]; exact h1
      · exact lt_trans h1 (hhead e he)
    · by_cases h2 : key = k
      · subst h2
        simp only [h1, if_true, if_false]
        exact List.pairwise_cons.mpr ⟨hhead, hrest⟩
      · simp only [h1, h2, if_false]
        have hlt : k.data < key.data := by
          rcases lt_trichotomy key.data k.data with h' | h' | h'
          · exact absurd h' h1
          · exact absurd (String.ext h') h2
          · exact h'
        refine List.pairwise_cons.mpr ⟨?_, ih hrest⟩
        intro e he
        rcases mem_map_assign rest key value e he with he' | he'
        · exact hhead e he'
        · rw [he']; exact hlt

theorem map_find_some_iff_mem_keys (m : ScoreMap) (key : String) :
    (∃ v, map_find m key = some v) ↔ key ∈ m.map (fun e => e.1) := by
  induction m with
  | nil => simp [map_find]
  | cons hd rest ih =>
    obtain ⟨k, w⟩ := hd
    unfold map_find
    by_cases hk : key = k
    · simp [hk]
    · simp only [hk, if_false, List.map_cons, List.mem_cons, false_or]
      exact ih

theorem mem_keys_map_assign (m : ScoreMap) (key name : String) (value : List Int) :
    name ∈ (map_assign m key value).map (fun e => e.1)
      ↔ name = key ∨ name ∈ m.map (fun e => e.1) := by
  rw [← map_find_some_iff_mem_keys, ← map_find_some_iff_mem_keys]
  by_cases h : name = key
  · subst h
    simp [map_find_assign_same]
  · simp [map_find_assign_other m key name value h, h]

theorem mem_accepted_names (calls : List Call) (name : String) :
    name ∈ accepted_names calls
      ↔ ∃ batch, Call.add_scores name batch ∈ calls ∧ ∀ s ∈ batch, 0 ≤ s := by
  induction calls with
  | nil => simp [accepted_names]
  | cons c rest ih =>
    cases c with
    | add_task n m => simp [accepted_names, ih]
    | calculate_result st => simp [accepted_names, ih]
    | get_score st t => simp [accepted_names, ih]
    | add_scores student batch =>
      unfold accepted_names
      cases hneg : has_negative batch with
      | true =>
        obtain ⟨x, hx, hxneg⟩ := (has_negative_iff batch).mp hneg
        simp only [if_true, ih, List.mem_cons, Call.add_scores.injEq]
        constructor
        · rintro ⟨b, hb, hv⟩
          exact ⟨b, Or.inr hb, hv⟩
        · rintro ⟨b, hb | hb, hv⟩
          · obtain ⟨_, rfl⟩ := hb
            have := hv x hx
            omega
          · exact ⟨b, hb, hv⟩
      | false =>
        have hvalid : ∀ s ∈ batch, 0 ≤ s := by
          intro x hx
          by_contra hlt
          have : has_negative batch = true := (has_negative_iff batch).mpr ⟨x, hx, by omega⟩
          rw [hneg] at this; exact Bool.noConfusion this
        simp only [Bool.false_eq_true, if_false, List.mem_cons, ih, Call.add_scores.injEq]
        constructor
        · rintro (h | ⟨b, hb, hv⟩)
          · exact ⟨batch, Or.inl ⟨h, rfl⟩, hvalid⟩
          · exact ⟨b, Or.inr hb, hv⟩
        · rintro ⟨b, hb | hb, hv⟩
          · exact Or.inl hb.1
          · exact Or.inr ⟨b, hb, hv⟩

/-- Along `add_task` and `add_scores` calls the map stays sorted and gains
exactly the accepted names. -/
theorem run_setup_names (calls : List Call) :
    ∀ (tm tm' : TaskManager), (∀ c ∈ calls, c.is_setup = true) → run tm calls = some tm' →
      keys_ascending tm.scores →
      keys_ascending tm'.scores
        ∧ ∀ name, name ∈ get_student_names tm'
            ↔ name ∈ get_student_names tm ∨ name ∈ accepted_names calls := by
  induction calls with
  | nil =>
    intro tm tm' _ hrun hasc
    simp only [run, Option.some.injEq] at hrun
    subst hrun
    exact ⟨hasc, fun name => by simp [accepted_names]⟩
  | cons c rest ih =>
    intro tm tm' hsetup hrun hasc
    have hrest : ∀ c' ∈ rest, c'.is_setup = true :=
      fun c' hc' => hsetup c' (List.mem_cons_of_mem _ hc')
    have hc : c.is_setup = true := hsetup c (List.mem_cons_self _ _)
    cases c with
    | calculate_result st => simp [Call.is_setup] at hc
    | get_score st t => simp [Call.is_setup] at hc
    | add_task n m =>
      simp only [run, step] at hrun
      obtain ⟨h1, h2⟩ := ih (add_task tm n m) tm' hrest hrun hasc
      exact ⟨h1, fun name => by rw [h2 name]; simp [accepted_names, get_student_names, add_task]⟩
    | add_scores student batch =>
      simp only [run, step] at hrun
      cases hneg : has_negative batch with
      | true =>
        have hstate : add_scores tm student batch = tm := by simp [add_scores, hneg]
        rw [hstate] at hrun
        obtain ⟨h1, h2⟩ := ih tm tm' hrest hrun hasc
        exact ⟨h1, fun name => by rw [h2 name]; simp [accepted_names, hneg]⟩
      | false =>
        have hstate : add_scores tm student batch
            = { tm with scores := map_assign tm.scores student batch } := by
          simp [add_scores, hneg]
        rw [hstate] at hrun
        obtain ⟨h1, h2⟩ := ih _ tm' hrest hrun (map_assign_ascending _ _ _ hasc)
        refine ⟨h1, fun name => ?_⟩
        rw [h2 name]
        simp only [get_student_names, mem_keys_map_assign, accepted_names, hneg,
          Bool.false_eq_true, if_false, List.mem_cons]
        tauto

theorem names_pairwise_of_ascending (m : ScoreMap) (h : keys_ascending m) :
    List.Pairwise (fun a b : String => a < b) (m.map (fun e => e.1)) := by
  unfold keys_ascending at h
  rw [List.pairwise_map]
  exact h.imp (fun hab => String.lt_iff_toList_lt.mpr hab)

/-- C18: in every state reached from an empty manager by `add_task` and
`add_scores` calls only, `get_student_names()` has no duplicates, is in strictly
ascending string order, and contains exactly the names for which at least one
`add_scores` call with an all-non-negative batch was made; so its length is the
number of distinct accepted student names. -/
theorem student_names_sorted_exact (n : Int) (calls : List Call) (tm : TaskManager)
    (hsetup : ∀ c ∈ calls, c.is_setup = true)
    (hreach : run (TaskManager.new n) calls = some tm) :
    (get_student_names tm).Nodup
      ∧ List.Pairwise (fun a b : String => a < b) (get_student_names tm)
      ∧ (∀ name : String, name ∈ get_student_names tm
          ↔ ∃ batch, Call.add_scores name batch ∈ calls ∧ ∀ s ∈ batch, 0 ≤ s)
      ∧ (get_student_names tm).length = (accepted_names calls).dedup.length := by
  have hempty : keys_ascending (TaskManager.new n).scores := by
    simp [TaskManager.new, keys_ascending]
  obtain ⟨hasc, hmem⟩ := run_setup_names calls _ tm hsetup hreach hempty
  have hmem' : ∀ name, name ∈ get_student_names tm ↔ name ∈ accepted_names calls := by
    intro name
    rw [hmem name]
    simp [get_student_names, TaskManager.new]
  have hsorted := names_pairwise_of_ascending tm.scores hasc
  have hnodup : (get_student_names tm).Nodup :=
    hsorted.imp (fun hab => ne_of_lt hab)
  refine ⟨hnodup, hsorted, fun name => (hmem' name).trans (mem_accepted_names calls name), ?_⟩
  apply List.Perm.length_eq
  rw [List.perm_ext_iff_of_nodup hnodup (List.nodup_dedup _)]
  intro name
  rw [List.mem_dedup]
  exact hmem' name

/-- Witness of C18: the seven `add_task` and `add_scores` calls of `main` leave
the four names "Student 1" to "Student 4", in that order. -/
theorem student_names_sorted_exact_witness :
    (∀ c ∈ demo_calls.take 7, c.is_setup = true)
      ∧ run (TaskManager.new 4) (demo_calls.take 7) = some (demo_manager 4)
      ∧ get_student_names (demo_manager 4)
          = ["Student 1", "Student 2", "Student 3", "Student 4"]
      ∧ (accepted_names (demo_calls.take 7)).dedup.length = 4
      ∧ (get_student_names (demo_manager 4)).length
          = (accepted_names (demo_calls.take 7)).dedup.length :=
  ⟨by decide, by decide, by decide, by decide,
    (student_names_sorted_exact 4 (demo_calls.take 7) (demo_manager 4)
      (by decide) (by decide)).2.2.2⟩

/-! ## Rounding to the nearest double -/

theorem round_half_even_mul (c d : Nat) (hd : 0 < d) : round_half_even (c * d) d = c := by
  have h1 : c * d % d = 0 := Nat.mul_mod_left c d
  have h2 : c * d / d = c := Nat.mul_div_cancel c hd
  simp [round_half_even, h1, h2, hd]

theorem round_half_even_bounds (a d : Nat) :
    a / d ≤ round_half_even a d ∧ round_half_even a d ≤ a / d + 1 := by
  unfold round_half_even
  split_ifs <;> constructor <;> omega

theorem round_half_even_mono (a a' d : Nat) (h : a ≤ a') :
    round_half_even a d ≤ round_half_even a' d := by
  have hq : a / d ≤ a' / d := Nat.div_le_div_right h
  by_cases hlt : a / d < a' / d
  · have u := (round_half_even_bounds a d).2
    have l := (round_half_even_bounds a' d).1
    omega
  · have heq : a / d = a' / d := by omega
    have e1 := Nat.div_add_mod a d
    have e2 := Nat.div_add_mod a' d
    rw [heq] at e1
    have hr : a % d ≤ a' % d := by omega
    unfold round_half_even
    rw [heq]
    split_ifs <;> omega

theorem log2_mono (a b : Nat) (h : a ≤ b) : Nat.log2 a ≤ Nat.log2 b := by
  by_cases ha : a = 0
  · subst ha; simp [Nat.log2_zero]
  · have hb : b ≠ 0 := by omega
    by_contra hc
    have h1 : b < 2 ^ Nat.log2 a := (Nat.log2_lt hb).mp (not_le.mp hc)
    have h2 : 2 ^ Nat.log2 a ≤ a := Nat.log2_self_le ha
    omega

theorem log2_eq_of (n k : Nat) (h1 : 2 ^ k ≤ n) (h2 : n < 2 ^ (k + 1)) : Nat.log2 n = k := by
  have hpos : 0 < 2 ^ k := Nat.two_pow_pos _
  have hn : n ≠ 0 := by omega
  apply le_antisymm
  · exact Nat.lt_succ_iff.mp ((Nat.log2_lt hn).mpr h2)
  · by_contra hc
    have := (Nat.log2_lt hn).mp (not_le.mp hc)
    omega

/-- Evaluation of `round_mantissa` once the binade of `a / b` is known. -/
theorem round_mantissa_of_log2 (a b k : Nat) (h1 : 2 ^ k ≤ a / b)
    (h2 : a / b < 2 ^ (k + 1)) :
    round_mantissa a b = round_half_even a (b * 2 ^ (k - 52)) * 2 ^ (k - 52) := by
  unfold round_mantissa
  rw [log2_eq_of _ k h1 h2]

theorem round_mantissa_upper (a b : Nat) (hb : 0 < b) :
    round_mantissa a b ≤ 2 ^ 53 * 2 ^ (Nat.log2 (a / b) - 52) := by
  have h1 : a / b < 2 ^ (Nat.log2 (a / b) + 1) := Nat.lt_log2_self
  have h2 : 2 ^ (Nat.log2 (a / b) + 1) ≤ 2 ^ (Nat.log2 (a / b) - 52 + 53) :=
    Nat.pow_le_pow_right (by norm_num) (by omega)
  have h3 : a / b < 2 ^ (Nat.log2 (a / b) - 52 + 53) := lt_of_lt_of_le h1 h2
  have h4 : a < 2 ^ (Nat.log2 (a / b) - 52 + 53) * b := (Nat.div_lt_iff_lt_mul hb).mp h3
  have h5 : 2 ^ (Nat.log2 (a / b) - 52 + 53) * b
      = 2 ^ 53 * (b * 2 ^ (Nat.log2 (a / b) - 52)) := by
    rw [pow_add]; ring
  have hD : 0 < b * 2 ^ (Nat.log2 (a / b) - 52) :=
    Nat.mul_pos hb (Nat.two_pow_pos _)
  rw [h5] at h4
  have h6 := round_half_even_mono a (2 ^ 53 * (b * 2 ^ (Nat.log2 (a / b) - 52)))
    (b * 2 ^ (Nat.log2 (a / b) - 52)) (le_of_lt h4)
  rw [round_half_even_mul _ _ hD] at h6
  unfold round_mantissa
  exact Nat.mul_le_mul_right _ h6

theorem round_mantissa_lower (a b : Nat) (hb : 0 < b) (hs : 0 < Nat.log2 (a / b) - 52) :
    2 ^ 52 * 2 ^ (Nat.log2 (a / b) - 52) ≤ round_mantissa a b := by
  have hne : a / b ≠ 0 := by
    intro h0
    rw [h0, Nat.log2_zero] at hs
    omega
  have h1 : 2 ^ Nat.log2 (a / b) ≤ a / b := Nat.log2_self_le hne
  have h2 : 2 ^ Nat.log2 (a / b) * b ≤ a := (Nat.le_div_iff_mul_le hb).mp h1
  have h3 : 2 ^ Nat.log2 (a / b) * b = 2 ^ 52 * (b * 2 ^ (Nat.log2 (a / b) - 52)) := by
    have e : Nat.log2 (a / b) = 52 + (Nat.log2 (a / b) - 52) := by omega
    conv_lhs => rw [e, pow_add]
    ring
  have hD : 0 < b * 2 ^ (Nat.log2 (a / b) - 52) :=
    Nat.mul_pos hb (Nat.two_pow_pos _)
  rw [h3] at h2
  have h4 := round_half_even_mono (2 ^ 52 * (b * 2 ^ (Nat.log2 (a / b) - 52))) a
    (b * 2 ^ (Nat.log2 (a / b) - 52)) h2
  rw [round_half_even_mul _ _ hD] at h4
  unfold round_mantissa
  exact Nat.mul_le_mul_right _ h4

/-- Rounding to 53 bits is monotone in the numerator. -/
theorem round_mantissa_mono (a a' b : Nat) (hb : 0 < b) (h : a ≤ a') :
    round_mantissa a b ≤ round_mantissa a' b := by
  have hs : Nat.log2 (a / b) - 52 ≤ Nat.log2 (a' / b) - 52 :=
    Nat.sub_le_sub_right (log2_mono _ _ (Nat.div_le_div_right h)) 52
  by_cases heq : Nat.log2 (a / b) - 52 = Nat.log2 (a' / b) - 52
  · unfold round_mantissa
    rw [heq]
    exact Nat.mul_le_mul_right _ (round_half_even_mono a a' _ h)
  · have hlt : Nat.log2 (a / b) - 52 + 1 ≤ Nat.log2 (a' / b) - 52 := by omega
    have hu := round_mantissa_upper a b hb
    have hl := round_mantissa_lower a' b hb (by omega)
    have hp : 2 ^ 53 * 2 ^ (Nat.log2 (a / b) - 52)
        ≤ 2 ^ 52 * 2 ^ (Nat.log2 (a' / b) - 52) := by
      have h1 : 2 ^ (Nat.log2 (a / b) - 52 + 1) ≤ 2 ^ (Nat.log2 (a' / b) - 52) :=
        Nat.pow_le_pow_right (by norm_num) hlt
      have h2 : 2 ^ 53 * 2 ^ (Nat.log2 (a / b) - 52)
          = 2 ^ 52 * 2 ^ (Nat.log2 (a / b) - 52 + 1) := by
        rw [pow_succ]; ring
      rw [h2]
      exact Nat.mul_le_mul_left _ h1
    exact le_trans hu (le_trans hp hl)

/-- Integers up to `2^53` are doubles. -/
theorem round_mantissa_of_le (n : Nat) (h : n ≤ 2 ^ 53) : round_mantissa n 1 = n := by
  by_cases hlt : n < 2 ^ 53
  · have hlog : Nat.log2 (n / 1) - 52 = 0 := by
      rw [Nat.div_one]
      by_cases hn : n = 0
      · subst hn; simp [Nat.log2_zero]
      · have := (Nat.log2_lt hn).mpr hlt
        omega
    unfold round_mantissa
    rw [hlog]
    simpa using round_half_even_mul n 1 (by norm_num)
  · have hn : n = 2 ^ 53 := by omega
    subst hn
    rw [round_mantissa_of_log2 _ _ 53 (by norm_num) (by norm_num)]
    norm_num [round_half_even]

theorem round_int_of_abs_le (n : Int) (h : |n| ≤ 2 ^ 53) : round_int n = n := by
  have hnat : n.natAbs ≤ 2 ^ 53 := by
    have : ((n.natAbs : Nat) : Int) ≤ 2 ^ 53 := by rw [Int.natCast_natAbs]; exact h
    exact_mod_cast this
  unfold round_int
  rw [round_mantissa_of_le _ hnat]
  split_ifs with hneg <;> omega

theorem double_quotient_mono (a a' : Int) (b : Nat) (hb : 0 < b) (h0 : 0 ≤ a)
    (h : a ≤ a') : double_quotient a b ≤ double_quotient a' b := by
  have hna : ¬ a < 0 := by omega
  have hna' : ¬ a' < 0 := by omega
  have hnat : a.natAbs * 2 ^ 1074 ≤ a'.natAbs * 2 ^ 1074 :=
    Nat.mul_le_mul_right _ (by omega)
  have hm := round_mantissa_mono _ _ b hb hnat
  simp only [double_quotient, hna, hna', if_false]
  apply div_le_div_of_nonneg_right
  · exact_mod_cast hm
  · positivity

/-! ## The slot updates in double arithmetic -/

theorem add_at_ieee_eq (slots : List Int) (i : Nat) (v : Int)
    (h : |slots.getD i 0 + v| ≤ 2 ^ 53) : add_at_ieee slots i v = add_at slots i v := by
  induction slots generalizing i with
  | nil => rfl
  | cons x xs ih =>
    cases i with
    | zero =>
      have hx : |x + v| ≤ 2 ^ 53 := by simpa using h
      simp [add_at_ieee, add_at, round_int_of_abs_le _ hx]
    | succ i =>
      have hx : |xs.getD i 0 + v| ≤ 2 ^ 53 := by simpa using h
      simp [add_at_ieee, add_at, ih i hx]

theorem add_at_ieee_eq_set (slots : List Int) (i : Nat) (v : Int) (hi : i < slots.length) :
    add_at_ieee slots i v = slots.set i (round_int (slots.getD i 0 + v)) := by
  induction slots generalizing i with
  | nil => simp at hi
  | cons x xs ih =>
    cases i with
    | zero => simp [add_at_ieee]
    | succ i =>
      have hi' : i < xs.length := by simpa using hi
      simp [add_at_ieee, ih i hi']

theorem add_at_eq_set (slots : List Int) (i : Nat) (v : Int) (hi : i < slots.length) :
    add_at slots i v = slots.set i (slots.getD i 0 + v) := by
  induction slots generalizing i with
  | nil => simp at hi
  | cons x xs ih =>
    cases i with
    | zero => simp [add_at]
    | succ i =>
      have hi' : i < xs.length := by simpa using hi
      simp [add_at, ih i hi']

theorem set_getD_self (slots : List Int) (i : Nat) :
    slots.set i (slots.getD i 0) = slots := by
  induction slots generalizing i with
  | nil => rfl
  | cons x xs ih =>
    cases i with
    | zero => simp
    | succ i => simpa using ih i

theorem worker_body_ieee_spec (tasks : List Task) (i j : Nat) (copy slots : List Int)
    (hj : j < copy.length) (ht : j < tasks.length) :
    ∃ copy', worker_body_ieee tasks i (copy, slots) j
        = some (copy', add_at_ieee slots i (clamp (copy.getD j 0) 0 (max_score_at tasks j)))
      ∧ (copy' = copy ∨ ∃ c, copy' = copy.set j c) := by
  have h1 : copy[j]? = some copy[j] := List.getElem?_eq_getElem hj
  have h2 : tasks[j]? = some tasks[j] := List.getElem?_eq_getElem ht
  have h3 : copy.getD j 0 = copy[j] := by simp [List.getD_eq_getElem?_getD, h1]
  have h4 : max_score_at tasks j = tasks[j].max_score := max_score_at_eq tasks j _ h2
  rw [h3, h4]
  unfold worker_body_ieee
  simp only [h1, h2]
  by_cases hneg : copy[j] < 0
  · exact ⟨copy.set j 0, by simp [hneg, clamp], Or.inr ⟨0, rfl⟩⟩
  · by_cases hbig : copy[j] > tasks[j].max_score
    · refine ⟨copy.set j tasks[j].max_score, ?_, Or.inr ⟨_, rfl⟩⟩
      have hbig' : tasks[j].max_score < copy[j] := hbig
      simp [hneg, hbig', clamp]
    · refine ⟨copy, ?_, Or.inl rfl⟩
      have hbig' : ¬ tasks[j].max_score < copy[j] := hbig
      simp [hneg, hbig', clamp]

theorem accumulate_ieee_set (tasks : List Task) (scores : List Int) (k : Nat) (c : Int)
    (count : Nat) :
    ∀ (x : Int) (j : Nat), k < j →
      accumulate_ieee tasks (scores.set k c) x j count
        = accumulate_ieee tasks scores x j count := by
  induction count with
  | zero => intro x j _; rfl
  | succ n ih =>
    intro x j h
    have hne : k ≠ j := Nat.ne_of_lt h
    simp only [accumulate_ieee, List.getD_eq_getElem?_getD, List.getElem?_set_ne hne]
    exact ih _ (j + 1) (Nat.lt_succ_of_lt h)

theorem accumulate_ieee_add (tasks : List Task) (scores : List Int) (a b : Nat) :
    ∀ (x : Int) (j : Nat),
      accumulate_ieee tasks scores x j (a + b)
        = accumulate_ieee tasks scores (accumulate_ieee tasks scores x j a) (j + a) b := by
  induction a with
  | zero => intro x j; simp [accumulate_ieee]
  | succ a ih =>
    intro x j
    have e : a + 1 + b = (a + b) + 1 := by omega
    have e' : j + (a + 1) = j + 1 + a := by omega
    rw [e, accumulate_ieee, accumulate_ieee, ih, e']

/-- The loop of a worker leaves in its slot what `accumulate_ieee` computes from
the slot's value and the student's scores. -/
theorem worker_loop_ieee_spec (tasks : List Task) (i : Nat) (count : Nat) :
    ∀ (j : Nat) (copy slots : List Int),
      j + count ≤ copy.length → j + count ≤ tasks.length → i < slots.length →
      ∃ copy', worker_loop_ieee tasks i j count (copy, slots)
        = some (copy', slots.set i (accumulate_ieee tasks copy (slots.getD i 0) j count)) := by
  induction count with
  | zero =>
    intro j copy slots _ _ hi
    refine ⟨copy, ?_⟩
    simp only [worker_loop_ieee, accumulate_ieee, set_getD_self]
  | succ n ih =>
    intro j copy slots hc ht hi
    obtain ⟨copy', hbody, hcopy⟩ :=
      worker_body_ieee_spec tasks i j copy slots (by omega) (by omega)
    have hlen : copy'.length = copy.length := by
      rcases hcopy with h | ⟨c, h⟩ <;> simp [h]
    have hacc : ∀ x, accumulate_ieee tasks copy' x (j + 1) n
        = accumulate_ieee tasks copy x (j + 1) n := by
      intro x
      rcases hcopy with h | ⟨c, h⟩
      · rw [h]
      · rw [h]; exact accumulate_ieee_set tasks copy j c n x (j + 1) (Nat.lt_succ_self j)
    rw [add_at_ieee_eq_set slots i _ hi] at hbody
    obtain ⟨copy'', hloop⟩ := ih (j + 1) copy'
      (slots.set i (round_int (slots.getD i 0
        + clamp (copy.getD j 0) 0 (max_score_at tasks j))))
      (by omega) (by omega) (by simpa using hi)
    refine ⟨copy'', ?_⟩
    have hget : (slots.set i (round_int (slots.getD i 0
        + clamp (copy.getD j 0) 0 (max_score_at tasks j)))).getD i 0
        = round_int (slots.getD i 0 + clamp (copy.getD j 0) 0 (max_score_at tasks j)) := by
      simp [List.getD_eq_getElem?_getD, List.getElem?_set_self hi]
    simp only [worker_loop_ieee, hbody, hloop, hget, hacc, List.set_set, accumulate_ieee]

theorem worker_ieee_spec (tasks : List Task) (student_scores : List Int) (n m i : Nat)
    (slots : List Int) (hs : m ≤ student_scores.length) (ht : m ≤ tasks.length)
    (hi : i < n) (hlen : slots.length = n) :
    worker_ieee tasks student_scores n m (m / n) i slots
      = some (slots.set i (accumulate_ieee tasks student_scores (slots.getD i 0)
          (chunk_start (m / n) i) (chunk_end n m (m / n) i - chunk_start (m / n) i))) := by
  obtain ⟨h1, h2⟩ := chunk_bounds n m i hi
  obtain ⟨copy', h⟩ := worker_loop_ieee_spec tasks i
    (chunk_end n m (m / n) i - chunk_start (m / n) i)
    (chunk_start (m / n) i) student_scores slots (by omega) (by omega) (by omega)
  simp [worker_ieee, h]

/-! ## Below `2^53` the double sums are the exact sums -/

theorem abs_chunk_sum_nonneg (tasks : List Task) (scores : List Int) (count : Nat) :
    ∀ j, 0 ≤ abs_chunk_sum tasks scores j count := by
  induction count with
  | zero => intro j; simp [abs_chunk_sum]
  | succ n ih =>
    intro j
    have := ih (j + 1)
    have := abs_nonneg (clamp (scores.getD j 0) 0 (max_score_at tasks j))
    simp only [abs_chunk_sum]
    omega

theorem abs_chunk_sum_add (tasks : List Task) (scores : List Int) (j a b : Nat) :
    abs_chunk_sum tasks scores j (a + b)
      = abs_chunk_sum tasks scores j a + abs_chunk_sum tasks scores (j + a) b := by
  induction a generalizing j with
  | zero => simp [abs_chunk_sum]
  | succ a ih =>
    have e : a + 1 + b = (a + b) + 1 := by omega
    have e' : j + (a + 1) = j + 1 + a := by omega
    rw [e, abs_chunk_sum, abs_chunk_sum, ih (j + 1), e']; ring

theorem chunk_sum_abs_le (tasks : List Task) (scores : List Int) (count : Nat) :
    ∀ j, |chunk_sum tasks scores j count| ≤ abs_chunk_sum tasks scores j count := by
  induction count with
  | zero => intro j; simp [chunk_sum, abs_chunk_sum]
  | succ n ih =>
    intro j
    simp only [chunk_sum, abs_chunk_sum]
    exact le_trans (abs_add _ _) (add_le_add_left (ih (j + 1)) _)

theorem accumulate_ieee_exact (tasks : List Task) (scores : List Int) (count : Nat) :
    ∀ (x : Int) (j : Nat), |x| + abs_chunk_sum tasks scores j count ≤ 2 ^ 53 →
      accumulate_ieee tasks scores x j count = x + chunk_sum tasks scores j count := by
  induction count with
  | zero => intro x j _; simp [accumulate_ieee, chunk_sum]
  | succ n ih =>
    intro x j h
    simp only [abs_chunk_sum] at h
    have hrest := abs_chunk_sum_nonneg tasks scores n (j + 1)
    have habs := abs_add x (clamp (scores.getD j 0) 0 (max_score_at tasks j))
    have hround : round_int (x + clamp (scores.getD j 0) 0 (max_score_at tasks j))
        = x + clamp (scores.getD j 0) 0 (max_score_at tasks j) :=
      round_int_of_abs_le _ (by omega)
    simp only [accumulate_ieee, chunk_sum, hround]
    rw [ih _ (j + 1) (by omega)]
    ring

theorem abs_getD_le (slots : List Int) (i : Nat) :
    |slots.getD i 0| ≤ (slots.map (fun x => |x|)).sum := by
  induction slots generalizing i with
  | nil => simp
  | cons x xs ih =>
    have hx := abs_nonneg x
    have hs : 0 ≤ (xs.map (fun x => |x|)).sum :=
      List.sum_nonneg (fun y hy => by
        obtain ⟨z, _, rfl⟩ := List.mem_map.mp hy
        exact abs_nonneg z)
    cases i with
    | zero =>
      simp only [List.getD_cons_zero, List.map_cons, List.sum_cons]
      omega
    | succ i =>
      have := ih i
      simp only [List.getD_cons_succ, List.map_cons, List.sum_cons]
      omega

theorem abs_sum_add_at (slots : List Int) (i : Nat) (v : Int) :
    ((add_at slots i v).map (fun x => |x|)).sum
      ≤ (slots.map (fun x => |x|)).sum + |v| := by
  induction slots generalizing i with
  | nil => simp [add_at]
  | cons x xs ih =>
    cases i with
    | zero =>
      have := abs_add x v
      simp only [add_at, List.map_cons, List.sum_cons]
      omega
    | succ i =>
      have := ih i
      simp only [add_at, List.map_cons, List.sum_cons]
      omega

/-- The clamped scores not yet added when worker `i` starts split into those of
its chunk and those left for the later workers. -/
theorem abs_chunk_split (tasks : List Task) (scores : List Int) (n m i c : Nat)
    (hi : i + (c + 1) = n) :
    abs_chunk_sum tasks scores (i * (m / n)) (m - i * (m / n))
      = abs_chunk_sum tasks scores (chunk_start (m / n) i)
          (chunk_end n m (m / n) i - chunk_start (m / n) i)
        + abs_chunk_sum tasks scores ((i + 1) * (m / n))
            (if c = 0 then 0 else m - (i + 1) * (m / n)) := by
  have hmul : n * (m / n) ≤ m := Nat.mul_div_le m n
  by_cases hc : c = 0
  · have hlast : i = n - 1 := by omega
    simp [hc, abs_chunk_sum, chunk_start, chunk_end, hlast]
  · have hnotlast : ¬ i = n - 1 := by omega
    have h2 : (i + 1 + 1) * (m / n) ≤ n * (m / n) := Nat.mul_le_mul_right _ (by omega)
    have e0 : (i + 1 + 1) * (m / n) = i * (m / n) + m / n + m / n := by ring
    have e1 : (i + 1) * (m / n) = i * (m / n) + m / n := by ring
    rw [e0] at h2
    have e2 : m - i * (m / n) = m / n + (m - (i * (m / n) + m / n)) :=
      sub_split _ _ _ (le_trans (le_trans (Nat.le_add_right _ _) h2) hmul)
    have e3 : i * (m / n) + m / n - i * (m / n) = m / n := Nat.add_sub_cancel_left _ _
    simp only [hc, if_false, chunk_start, chunk_end, hnotlast, e1]
    rw [e2, abs_chunk_sum_add, e3]

/-- While the absolute values of the sums in the slots and of the clamped scores
still to be added total at most `2^53`, the workers in double arithmetic compute
what the workers in exact arithmetic compute. -/
theorem run_workers_ieee_exact (tasks : List Task) (student_scores : List Int)
    (n m : Nat) (hs : m ≤ student_scores.length) (ht : m ≤ tasks.length) (count : Nat) :
    ∀ (i : Nat) (slots : List Int), i + count = n → slots.length = n →
      (slots.map (fun x => |x|)).sum
          + abs_chunk_sum tasks student_scores (i * (m / n))
              (if count = 0 then 0 else m - i * (m / n)) ≤ 2 ^ 53 →
      ∃ slots', run_workers_ieee tasks student_scores n m (m / n) i count slots = some slots'
        ∧ run_workers tasks student_scores n m (m / n) i count slots = some slots'
        ∧ slots'.length = n
        ∧ (slots'.map (fun x => |x|)).sum
            ≤ (slots.map (fun x => |x|)).sum
              + abs_chunk_sum tasks student_scores (i * (m / n))
                  (if count = 0 then 0 else m - i * (m / n)) := by
  induction count with
  | zero =>
    intro i slots _ hlen _
    exact ⟨slots, rfl, rfl, hlen, by simp [abs_chunk_sum]⟩
  | succ c ih =>
    intro i slots hi hlen hbound
    have hilt : i < n := by omega
    have hsplit := abs_chunk_split tasks student_scores n m i c hi
    simp only [Nat.succ_ne_zero, if_false] at hbound ⊢
    have hnext := abs_chunk_sum_nonneg tasks student_scores
      (if c = 0 then 0 else m - (i + 1) * (m / n)) ((i + 1) * (m / n))
    have hchunk := abs_chunk_sum_nonneg tasks student_scores
      (chunk_end n m (m / n) i - chunk_start (m / n) i) (chunk_start (m / n) i)
    have hslot := abs_getD_le slots i
    have hcs := chunk_sum_abs_le tasks student_scores
      (chunk_end n m (m / n) i - chunk_start (m / n) i) (chunk_start (m / n) i)
    have hexact := worker_eq_add_at tasks student_scores n m i slots hs ht hilt
    have hieee := worker_ieee_spec tasks student_scores n m i slots hs ht hilt hlen
    rw [accumulate_ieee_exact tasks student_scores _ _ _ (by omega),
      ← add_at_eq_set slots i _ (by omega)] at hieee
    have hpot := abs_sum_add_at slots i (chunk_sum tasks student_scores
      (chunk_start (m / n) i) (chunk_end n m (m / n) i - chunk_start (m / n) i))
    obtain ⟨slots', h1, h2, h3, h4⟩ := ih (i + 1)
      (add_at slots i (chunk_sum tasks student_scores (chunk_start (m / n) i)
        (chunk_end n m (m / n) i - chunk_start (m / n) i)))
      (by omega) (by rw [add_at_length]; exact hlen) (by omega)
    refine ⟨slots', ?_, ?_, h3, by omega⟩
    · simp only [run_workers_ieee, hieee, h1]
    · simp only [run_workers, hexact, h2]

theorem foldl_round_exact (slots : List Int) :
    ∀ acc : Int, |acc| + (slots.map (fun x => |x|)).sum ≤ 2 ^ 53 →
      slots.foldl (fun acc score => round_int (acc + score)) acc = acc + slots.sum := by
  induction slots with
  | nil => intro acc _; simp
  | cons x xs ih =>
    intro acc h
    simp only [List.map_cons, List.sum_cons] at h
    have hs : 0 ≤ (xs.map (fun x => |x|)).sum :=
      List.sum_nonneg (fun y hy => by
        obtain ⟨z, _, rfl⟩ := List.mem_map.mp hy
        exact abs_nonneg z)
    have habs := abs_add acc x
    have hround : round_int (acc + x) = acc + x := round_int_of_abs_le _ (by omega)
    simp only [List.foldl_cons, hround, List.sum_cons]
    rw [ih (acc + x) (by omega)]
    ring

/-- When the absolute values of the clamped scores sum to at most `2^53`, no
addition of the aggregation rounds: with at least one worker thread the call
returns the double quotient of the exact clamped sum by the number of tasks. -/
theorem calculate_result_ieee_eq (tm : TaskManager) (student : String)
    (h : 1 ≤ tm.num_threads)
    (hbound : abs_clamped_sum tm.tasks (map_index tm.scores student).2 ≤ 2 ^ 53) :
    calculate_result_ieee tm student
      = some ({ tm with scores := (map_index tm.scores student).1 },
          double_div_ieee (clamped_sum tm.tasks (map_index tm.scores student).2)
            tm.tasks.length) := by
  have hpos : ¬ tm.num_threads ≤ 0 := by omega
  have hne : ¬ tm.num_threads.toNat = 0 := by omega
  have hzero : ((List.replicate tm.num_threads.toNat (0 : Int)).map (fun x => |x|)).sum
      = 0 := by simp
  obtain ⟨slots', hieee, hexact, _, hpot⟩ :=
    run_workers_ieee_exact tm.tasks (map_index tm.scores student).2 tm.num_threads.toNat
      (min (map_index tm.scores student).2.length tm.tasks.length)
      (Nat.min_le_left _ _) (Nat.min_le_right _ _)
      tm.num_threads.toNat 0 (List.replicate tm.num_threads.toNat 0)
      (by omega) (by simp)
      (by
        simp only [hne, if_false, Nat.zero_mul, Nat.sub_zero, hzero]
        unfold abs_clamped_sum at hbound
        omega)
  simp only [hne, if_false, Nat.zero_mul, Nat.sub_zero, hzero] at hpot
  obtain ⟨slots'', hexact', _, hsum⟩ :=
    run_workers_spec tm.tasks (map_index tm.scores student).2 tm.num_threads.toNat
      (min (map_index tm.scores student).2.length tm.tasks.length)
      (Nat.min_le_left _ _) (Nat.min_le_right _ _)
      tm.num_threads.toNat 0 (List.replicate tm.num_threads.toNat 0)
      (by omega) (by simp)
  rw [hexact] at hexact'
  simp only [Option.some.injEq] at hexact'
  subst hexact'
  simp only [hne, if_false, Nat.zero_mul, Nat.sub_zero, chunk_sum_zero_eq] at hsum
  have hsum0 : (List.replicate tm.num_threads.toNat (0 : Int)).sum = 0 := by simp
  rw [hsum0, zero_add] at hsum
  have htotal : total_of_ieee slots' = clamped_sum tm.tasks (map_index tm.scores student).2 := by
    unfold total_of_ieee
    unfold abs_clamped_sum at hbound
    rw [foldl_round_exact slots' 0 (by simp only [abs_zero]; omega), zero_add, hsum]
  unfold calculate_result_ieee
  simp only [hpos, if_false, map_index_again, hieee, htotal]

/-! ## The returned double -/

theorem round_mantissa_ne_zero (n : Nat) (h : n ≠ 0) : round_mantissa n 1 ≠ 0 := by
  have h1 : round_mantissa 1 1 = 1 := round_mantissa_of_le 1 (by norm_num)
  have h2 := round_mantissa_mono 1 n 1 (by norm_num) (by omega)
  omega

theorem double_div_ieee_finite (total : Int) (size : Nat) (h : size ≠ 0) :
    double_div_ieee total size
      = DoubleVal.finite (double_quotient total (round_mantissa size 1)) := by
  simp [double_div_ieee, round_mantissa_ne_zero size h]

/-- The double quotient by a fixed number of tasks is monotone on non-negative
totals. -/
theorem double_div_ieee_mono (a a' : Int) (size : Nat) (h : size ≠ 0) (h0 : 0 ≤ a)
    (hle : a ≤ a') :
    ∃ q q', double_div_ieee a size = DoubleVal.finite q
      ∧ double_div_ieee a' size = DoubleVal.finite q' ∧ q ≤ q' :=
  ⟨_, _, double_div_ieee_finite a size h, double_div_ieee_finite a' size h,
    double_quotient_mono a a' _ (Nat.pos_of_ne_zero (round_mantissa_ne_zero size h)) h0 hle⟩

/-- The result for a student with a stored record whose clamped scores stay
below `2^53` in absolute sum. -/
theorem calculate_result_ieee_of_stored (tm : TaskManager) (student : String)
    (v : List Int) (hthreads : 1 ≤ tm.num_threads)
    (hstored : map_find tm.scores student = some v)
    (hbound : abs_clamped_sum tm.tasks v ≤ 2 ^ 53) :
    calculate_result_ieee tm student
      = some (tm, double_div_ieee (clamped_sum tm.tasks v) tm.tasks.length) := by
  have hidx := map_index_of_find _ _ _ hstored
  rw [calculate_result_ieee_eq tm student hthreads (by rw [hidx]; exact hbound), hidx]

theorem abs_chunk_sum_append (tasks : List Task) (t : Task) (scores : List Int)
    (count : Nat) :
    ∀ j, j + count ≤ tasks.length →
      abs_chunk_sum (tasks ++ [t]) scores j count = abs_chunk_sum tasks scores j count := by
  induction count with
  | zero => intro j _; rfl
  | succ n ih =>
    intro j h
    simp only [abs_chunk_sum, max_score_at_append tasks t j (by omega), ih (j + 1) (by omega)]

theorem abs_clamped_sum_append (tasks : List Task) (t : Task) (scores : List Int)
    (h : scores.length ≤ tasks.length) :
    abs_clamped_sum (tasks ++ [t]) scores = abs_clamped_sum tasks scores := by
  have e1 : min scores.length (tasks ++ [t]).length = scores.length := by
    simp only [List.length_append, List.length_singleton]; omega
  have e2 : min scores.length tasks.length = scores.length := by omega
  unfold abs_clamped_sum
  rw [e1, e2]
  exact abs_chunk_sum_append tasks t scores scores.length 0 (by omega)

theorem abs_chunk_sum_of_nonneg (tasks : List Task) (scores : List Int)
    (h : ∀ t ∈ tasks, 0 ≤ t.max_score) (count : Nat) :
    ∀ j, abs_chunk_sum tasks scores j count = chunk_sum tasks scores j count := by
  induction count with
  | zero => intro j; rfl
  | succ n ih =>
    intro j
    have hc := (clamp_bounds (scores.getD j 0) _ (max_score_at_nonneg tasks h j)).1
    simp only [abs_chunk_sum, chunk_sum, ih (j + 1), abs_of_nonneg hc]

theorem abs_clamped_sum_of_nonneg (tasks : List Task) (scores : List Int)
    (h : ∀ t ∈ tasks, 0 ≤ t.max_score) :
    abs_clamped_sum tasks scores = clamped_sum tasks scores := by
  unfold abs_clamped_sum
  rw [abs_chunk_sum_of_nonneg tasks scores h, chunk_sum_zero_eq]

/-- On three tasks with maxima 10, 6, 4 and the scores 10, 6, 4 the returned
double is the one nearest to `20 / 3`. -/
theorem thirds_result :
    calculate_result_ieee thirds_manager "Student 1"
      = some (thirds_manager,
          DoubleVal.finite (7505999378950827 / 1125899906842624)) := by
  have hstored : map_find thirds_manager.scores "Student 1" = some [10, 6, 4] := by decide
  have hsum : clamped_sum thirds_manager.tasks [10, 6, 4] = 20 := by decide
  have hlen : thirds_manager.tasks.length = 3 := by decide
  have h3 : round_mantissa 3 1 = 3 := round_mantissa_of_le 3 (by norm_num)
  have h : round_mantissa ((20 : Int).natAbs * 2 ^ 1074) 3
      = 7505999378950827 * 2 ^ 1024 := by
    rw [round_mantissa_of_log2 _ _ 1076 (by norm_num) (by norm_num)]
    norm_num [round_half_even]
  rw [calculate_result_ieee_of_stored thirds_manager "Student 1" [10, 6, 4] (by decide)
    hstored (by decide), hsum, hlen]
  simp only [double_div_ieee, double_quotient, h3, h]
  norm_num

/-- On six tasks and the clamped sum 29 the returned double is the one nearest
to `29 / 6`; with a seventh task it is the one nearest to `29 / 7`. -/
theorem six_tasks_results :
    calculate_result_ieee six_tasks_manager "Student 1"
        = some (six_tasks_manager,
            DoubleVal.finite (5441849549739349 / 1125899906842624))
      ∧ calculate_result_ieee (add_task six_tasks_manager "Task 7" 10) "Student 1"
          = some (add_task six_tasks_manager "Task 7" 10,
              DoubleVal.finite (4664442471205157 / 1125899906842624)) := by
  have h6 : round_mantissa 6 1 = 6 := round_mantissa_of_le 6 (by norm_num)
  have h7 : round_mantissa 7 1 = 7 := round_mantissa_of_le 7 (by norm_num)
  have hq6 : round_mantissa ((29 : Int).natAbs * 2 ^ 1074) 6
      = 5441849549739349 * 2 ^ 1024 := by
    rw [round_mantissa_of_log2 _ _ 1076 (by norm_num) (by norm_num)]
    norm_num [round_half_even]
  have hq7 : round_mantissa ((29 : Int).natAbs * 2 ^ 1074) 7
      = 4664442471205157 * 2 ^ 1024 := by
    rw [round_mantissa_of_log2 _ _ 1076 (by norm_num) (by norm_num)]
    norm_num [round_half_even]
  constructor
  · have hsum : clamped_sum six_tasks_manager.tasks [10, 10, 9] = 29 := by decide
    have hlen : six_tasks_manager.tasks.length = 6 := by decide
    rw [calculate_result_ieee_of_stored six_tasks_manager "Student 1" [10, 10, 9]
      (by decide) (by decide) (by decide), hsum, hlen]
    simp only [double_div_ieee, double_quotient, h6, hq6]
    norm_num
  · have hsum : clamped_sum (add_task six_tasks_manager "Task 7" 10).tasks [10, 10, 9]
        = 29 := by decide
    have hlen : (add_task six_tasks_manager "Task 7" 10).tasks.length = 7 := by decide
    rw [calculate_result_ieee_of_stored (add_task six_tasks_manager "Task 7" 10)
      "Student 1" [10, 10, 9] (by decide) (by decide) (by decide), hsum, hlen]
    simp only [double_div_ieee, double_quotient, h7, hq7]
    norm_num

/-! ## Uniform scores: where the double sums start to round -/

theorem uniform_clamp (count : Nat) (score : Int) (j : Nat) (hscore : 0 ≤ score)
    (hj : j < count) :
    clamp ((List.replicate count score).getD j 0) 0
        (max_score_at (List.replicate count { name := "Task", max_score := score }) j)
      = score := by
  have h1 : (List.replicate count score).getD j 0 = score := by
    simp [List.getD_eq_getElem?_getD, List.getElem?_replicate, hj]
  have h2 : max_score_at (List.replicate count { name := "Task", max_score := score }) j
      = score := by
    simp [max_score_at, List.getD_eq_getElem?_getD, List.getElem?_replicate, hj]
  rw [h1, h2]
  unfold clamp
  split_ifs <;> omega

theorem uniform_chunk_sum (count : Nat) (score : Int) (hscore : 0 ≤ score) (k : Nat) :
    ∀ j, j + k ≤ count →
      chunk_sum (List.replicate count { name := "Task", max_score := score })
          (List.replicate count score) j k = (k : Int) * score
        ∧ abs_chunk_sum (List.replicate count { name := "Task", max_score := score })
            (List.replicate count score) j k = (k : Int) * score := by
  induction k with
  | zero => intro j _; simp [chunk_sum, abs_chunk_sum]
  | succ k ih =>
    intro j h
    obtain ⟨h1, h2⟩ := ih (j + 1) (by omega)
    simp only [chunk_sum, abs_chunk_sum, uniform_clamp count score j hscore (by omega), h1, h2,
      abs_of_nonneg hscore]
    constructor <;> push_cast <;> ring

/-- Two loop iterations on uniform scores. -/
theorem uniform_accumulate_two (count : Nat) (score : Int) (hscore : 0 ≤ score) (x : Int)
    (j : Nat) (hj : j + 2 ≤ count) :
    accumulate_ieee (List.replicate count { name := "Task", max_score := score })
        (List.replicate count score) x j 2
      = round_int (round_int (x + score) + score) := by
  simp only [accumulate_ieee, uniform_clamp count score j hscore (by omega),
    uniform_clamp count score (j + 1) hscore (by omega)]

/-- While `k * score` stays within `2^53`, `k` loop iterations from an empty
slot add up exactly. -/
theorem uniform_accumulate_exact (count : Nat) (score : Int) (hscore : 0 ≤ score)
    (j k : Nat) (hk : j + k ≤ count) (hbound : (k : Int) * score ≤ 2 ^ 53) :
    accumulate_ieee (List.replicate count { name := "Task", max_score := score })
        (List.replicate count score) 0 j k = (k : Int) * score := by
  obtain ⟨h1, h2⟩ := uniform_chunk_sum count score hscore k j hk
  rw [accumulate_ieee_exact _ _ k 0 j (by rw [h2]; simpa using hbound), h1, zero_add]

theorem uniform_map_index (count : Nat) (score : Int) (num_threads : Int) :
    map_index (uniform_manager count score num_threads).scores "Student 1"
      = ((uniform_manager count score num_threads).scores, List.replicate count score) := by
  simp [map_index, map_find, uniform_manager]

/-- One worker on `k + 2` uniform scores with `k * score <= 2^53`: the slot is
exact for `k` iterations, and the last two additions round. -/
theorem uniform_one_worker (count k : Nat) (score total : Int) (hcount : count = k + 2)
    (hscore : 0 ≤ score) (hbound : (k : Int) * score ≤ 2 ^ 53)
    (htotal : round_int (0 + round_int (round_int ((k : Int) * score + score) + score))
      = total) :
    calculate_result_ieee (uniform_manager count score 1) "Student 1"
      = some (uniform_manager count score 1, double_div_ieee total count) := by
  have hmin : min (List.replicate count score).length
      (List.replicate count ({ name := "Task", max_score := score } : Task)).length = count := by
    simp
  have hworker := worker_ieee_spec
    (List.replicate count ({ name := "Task", max_score := score } : Task))
    (List.replicate count score) 1 count 0 [0] (by simp) (by simp) (by omega) rfl
  have hstart : chunk_start (count / 1) 0 = 0 := by simp [chunk_start]
  have hend : chunk_end 1 count (count / 1) 0 = count := by simp [chunk_end]
  have hacc : accumulate_ieee
      (List.replicate count ({ name := "Task", max_score := score } : Task))
      (List.replicate count score) 0 0 count
      = round_int (round_int ((k : Int) * score + score) + score) := by
    rw [hcount, accumulate_ieee_add, ← hcount,
      uniform_accumulate_exact count score hscore 0 k (by omega) hbound,
      uniform_accumulate_two count score hscore _ (0 + k) (by omega)]
  rw [hstart, hend, Nat.sub_zero] at hworker
  simp only [List.getD_cons_zero, List.set_cons_zero, hacc] at hworker
  have hstate : ({ uniform_manager count score 1 with
      scores := (uniform_manager count score 1).scores } : TaskManager)
      = uniform_manager count score 1 := rfl
  have hthreads : (uniform_manager count score 1).num_threads = 1 := rfl
  have htasks : (uniform_manager count score 1).tasks
      = List.replicate count ({ name := "Task", max_score := score } : Task) := rfl
  unfold calculate_result_ieee
  simp only [hthreads, uniform_map_index, htasks, hmin, Int.toNat_one, List.replicate_one,
    run_workers_ieee, min_self, hworker, total_of_ieee, List.foldl_cons, List.foldl_nil,
    htotal, List.length_replicate]
  simp [uniform_manager]

/-- Two workers on `half + half` uniform scores with `half * score <= 2^53`: both
slots are exact, and only the final reduction can round. -/
theorem uniform_two_workers (count half : Nat) (score total : Int)
    (hcount : count = half + half) (hscore : 0 ≤ score)
    (hbound : (half : Int) * score ≤ 2 ^ 53)
    (htotal : round_int (round_int (0 + (half : Int) * score) + (half : Int) * score)
      = total) :
    calculate_result_ieee (uniform_manager count score 2) "Student 1"
      = some (uniform_manager count score 2, double_div_ieee total count) := by
  have hq : count / 2 = half := by omega
  have hstart0 : chunk_start half 0 = 0 := by simp [chunk_start]
  have hend0 : chunk_end 2 count half 0 = half := by simp [chunk_end]
  have hstart1 : chunk_start half 1 = half := by simp [chunk_start]
  have hend1 : chunk_end 2 count half 1 = count := by simp [chunk_end]
  have hsize : count - half = half := by omega
  have hworker0 := worker_ieee_spec
    (List.replicate count ({ name := "Task", max_score := score } : Task))
    (List.replicate count score) 2 count 0 [0, 0] (by simp) (by simp) (by omega) rfl
  rw [hq, hstart0, hend0, Nat.sub_zero] at hworker0
  simp only [List.getD_cons_zero, List.set_cons_zero,
    uniform_accumulate_exact count score hscore 0 half (by omega) hbound] at hworker0
  have hworker1 := worker_ieee_spec
    (List.replicate count ({ name := "Task", max_score := score } : Task))
    (List.replicate count score) 2 count 1 [(half : Int) * score, 0]
    (by simp) (by simp) (by omega) rfl
  rw [hq, hstart1, hend1, hsize] at hworker1
  simp only [List.getD_cons_succ, List.getD_cons_zero, List.set_cons_succ, List.set_cons_zero,
    uniform_accumulate_exact count score hscore half half (by omega) hbound] at hworker1
  have hthreads : (uniform_manager count score 2).num_threads = 2 := rfl
  have htasks : (uniform_manager count score 2).tasks
      = List.replicate count ({ name := "Task", max_score := score } : Task) := rfl
  have htwo : (2 : Int).toNat = 2 := rfl
  have hrep : List.replicate 2 (0 : Int) = [0, 0] := rfl
  unfold calculate_result_ieee
  simp only [hthreads, uniform_map_index, htasks, htwo, hrep, List.length_replicate, min_self,
    hq, run_workers_ieee, hworker0, hworker1, total_of_ieee, List.foldl_cons,
    List.foldl_nil, htotal]
  simp [uniform_manager]

/-- Evaluation of `round_int` at a non-negative integer of known binade. -/
theorem round_int_eval (z : Int) (n k r : Nat) (hz : z = (n : Int)) (h1 : 2 ^ k ≤ n)
    (h2 : n < 2 ^ (k + 1))
    (hr : round_half_even n (1 * 2 ^ (k - 52)) * 2 ^ (k - 52) = r) :
    round_int z = (r : Int) := by
  subst hz
  have hneg : ¬ ((n : Int) < 0) := by omega
  have hlog := round_mantissa_of_log2 n 1 k (by rw [Nat.div_one]; exact h1)
    (by rw [Nat.div_one]; exact h2)
  simp only [round_int, hneg, if_false, Int.natAbs_ofNat, hlog, hr]

/-- Evaluation of `double_quotient` at a non-negative numerator. -/
theorem double_quotient_eval (a : Int) (b t k r : Nat) (q : ℚ) (ht : a = (t : Int))
    (h1 : 2 ^ k ≤ t * 2 ^ 1074 / b) (h2 : t * 2 ^ 1074 / b < 2 ^ (k + 1))
    (hr : round_half_even (t * 2 ^ 1074) (b * 2 ^ (k - 52)) * 2 ^ (k - 52) = r)
    (hq : (r : ℚ) / 2 ^ 1074 = q) :
    double_quotient a b = q := by
  subst ht
  have hneg : ¬ ((t : Int) < 0) := by omega
  simp only [double_quotient, hneg, if_false, Int.natAbs_ofNat,
    round_mantissa_of_log2 _ _ k h1 h2, hr, hq]

/-- Evaluation of the double quotient of a non-negative total. -/
theorem double_div_ieee_eval (total : Int) (size t k r : Nat) (q : ℚ)
    (ht : total = (t : Int)) (hsize : size ≠ 0) (hle : size ≤ 2 ^ 53)
    (h1 : 2 ^ k ≤ t * 2 ^ 1074 / size) (h2 : t * 2 ^ 1074 / size < 2 ^ (k + 1))
    (hr : round_half_even (t * 2 ^ 1074) (size * 2 ^ (k - 52)) * 2 ^ (k - 52) = r)
    (hq : (r : ℚ) / 2 ^ 1074 = q) :
    double_div_ieee total size = DoubleVal.finite q := by
  subst ht
  have hneg : ¬ ((t : Int) < 0) := by omega
  rw [double_div_ieee_finite _ _ hsize, round_mantissa_of_le size hle]
  simp only [double_quotient, hneg, if_false, Int.natAbs_ofNat,
    round_mantissa_of_log2 _ _ k h1 h2, hr, hq]

/-- On the large uniform input the returned double depends on the number of
worker threads: one worker returns `4503599625273345 / 2^21`, two workers
return `2147483647`. -/
theorem large_results :
    calculate_result_ieee (large_manager 1) "Student 1"
        = some (large_manager 1, DoubleVal.finite (4503599625273345 / 2097152))
      ∧ calculate_result_ieee (large_manager 2) "Student 1"
          = some (large_manager 2, DoubleVal.finite 2147483647) := by
  have hstep1 : round_int (((4194304 : Nat) : Int) * 2147483647 + 2147483647)
      = 9007201398030336 := by
    have h := round_int_eval 9007201398030335 9007201398030335 53 9007201398030336
      (by norm_num) (by norm_num) (by norm_num) (by norm_num [round_half_even])
    have e : ((4194304 : Nat) : Int) * 2147483647 + 2147483647 = 9007201398030335 := by
      norm_num
    rw [e, h]; norm_num
  have hstep2 : round_int (9007201398030336 + 2147483647) = 9007203545513984 := by
    have h := round_int_eval 9007203545513983 9007203545513983 53 9007203545513984
      (by norm_num) (by norm_num) (by norm_num) (by norm_num [round_half_even])
    have e : (9007201398030336 : Int) + 2147483647 = 9007203545513983 := by norm_num
    rw [e, h]; norm_num
  have hstep3 : round_int (0 + 9007203545513984) = 9007203545513984 := by
    have h := round_int_eval 9007203545513984 9007203545513984 53 9007203545513984
      (by norm_num) (by norm_num) (by norm_num) (by norm_num [round_half_even])
    have e : (0 : Int) + 9007203545513984 = 9007203545513984 := by norm_num
    rw [e, h]; norm_num
  have hhalf : round_int (0 + ((2097153 : Nat) : Int) * 2147483647)
      = ((2097153 : Nat) : Int) * 2147483647 :=
    round_int_of_abs_le _ (by norm_num)
  have hsum : round_int (((2097153 : Nat) : Int) * 2147483647
      + ((2097153 : Nat) : Int) * 2147483647) = 9007203545513982 := by
    have h := round_int_eval 9007203545513982 9007203545513982 53 9007203545513982
      (by norm_num) (by norm_num) (by norm_num) (by norm_num [round_half_even])
    have e : ((2097153 : Nat) : Int) * 2147483647 + ((2097153 : Nat) : Int) * 2147483647
        = 9007203545513982 := by norm_num
    rw [e, h]; norm_num
  have hdiv1 : double_div_ieee 9007203545513984 4194306
      = DoubleVal.finite (4503599625273345 / 2097152) :=
    double_div_ieee_eval 9007203545513984 4194306 9007203545513984 1104
      (9007199250546690 * 2 ^ 1052) _ (by norm_num) (by norm_num) (by norm_num)
      (by norm_num) (by norm_num) (by norm_num [round_half_even]) (by norm_num)
  have hdiv2 : double_div_ieee 9007203545513982 4194306 = DoubleVal.finite 2147483647 :=
    double_div_ieee_eval 9007203545513982 4194306 9007203545513982 1104
      (9007199250546688 * 2 ^ 1052) _ (by norm_num) (by norm_num) (by norm_num)
      (by norm_num) (by norm_num) (by norm_num [round_half_even]) (by norm_num)
  constructor
  · have h := uniform_one_worker 4194306 4194304 2147483647 9007203545513984 rfl
      (by norm_num) (by norm_num) (by rw [hstep1, hstep2, hstep3])
    rw [hdiv1] at h
    exact h
  · have h := uniform_two_workers 4194306 2097153 2147483647 9007203545513982 rfl
      (by norm_num) (by norm_num) (by rw [hhalf, hsum])
    rw [hdiv2] at h
    exact h

theorem uniform_stored (count : Nat) (score : Int) (num_threads : Int) (hscore : 0 ≤ score) :
    map_find (uniform_manager count score num_threads).scores "Student 1"
        = some (List.replicate count score)
      ∧ (∀ s ∈ List.replicate count score, 0 ≤ s)
      ∧ (uniform_manager count score num_threads).tasks.length = count := by
  refine ⟨by simp [map_find, uniform_manager], ?_, by simp [uniform_manager]⟩
  intro s hs
  rw [List.eq_of_mem_replicate hs]
  exact hscore

theorem uniform_max_scores (count : Nat) (score : Int) (num_threads : Int)
    (hscore : 0 ≤ score) :
    (∀ t ∈ (uniform_manager count score num_threads).tasks, 0 ≤ t.max_score)
      ∧ (get_max_scores (uniform_manager count score num_threads)).sum
          = (count : Int) * score := by
  constructor
  · intro t ht
    rw [List.eq_of_mem_replicate ht]
    exact hscore
  · simp [get_max_scores, uniform_manager, List.sum_replicate]

/-- Below `2^53` the exact reading and the double reading of the aggregation
agree up to the rounding of the final quotient. -/
theorem calculate_result_ieee_vs_exact (tm : TaskManager) (student : String)
    (h : 1 ≤ tm.num_threads)
    (hbound : abs_clamped_sum tm.tasks (map_index tm.scores student).2 ≤ 2 ^ 53) :
    ∃ tm', calculate_result tm student
          = some (tm', double_div (clamped_sum tm.tasks (map_index tm.scores student).2)
              tm.tasks.length)
      ∧ calculate_result_ieee tm student
          = some (tm', double_div_ieee (clamped_sum tm.tasks (map_index tm.scores student).2)
              tm.tasks.length) :=
  ⟨_, calculate_result_eq tm student h, calculate_result_ieee_eq tm student h hbound⟩

/-- On the demonstration data the doubles returned are exactly 7, 6 and 8. -/
theorem demo_results_ieee :
    calculate_result_ieee (demo_manager 4) "Student 1"
        = some (demo_manager 4, DoubleVal.finite 7)
      ∧ calculate_result_ieee (demo_manager 4) "Student 2"
          = some (demo_manager 4, DoubleVal.finite 6)
      ∧ calculate_result_ieee (demo_manager 4) "Student 3"
          = some (demo_manager 4, DoubleVal.finite 8) := by
  have hlen : (demo_manager 4).tasks.length = 3 := by decide
  have s1 : clamped_sum (demo_manager 4).tasks [8, 7, 6] = 21 := by decide
  have s2 : clamped_sum (demo_manager 4).tasks [9, 5, 4] = 18 := by decide
  have s3 : clamped_sum (demo_manager 4).tasks [10, 9, 6] = 24 := by decide
  have d1 : double_div_ieee 21 3 = DoubleVal.finite 7 :=
    double_div_ieee_eval 21 3 21 1076 (7881299347898368 * 2 ^ 1024) _ (by norm_num)
      (by norm_num) (by norm_num) (by norm_num) (by norm_num)
      (by norm_num [round_half_even]) (by norm_num)
  have d2 : double_div_ieee 18 3 = DoubleVal.finite 6 :=
    double_div_ieee_eval 18 3 18 1076 (6755399441055744 * 2 ^ 1024) _ (by norm_num)
      (by norm_num) (by norm_num) (by norm_num) (by norm_num)
      (by norm_num [round_half_even]) (by norm_num)
  have d3 : double_div_ieee 24 3 = DoubleVal.finite 8 :=
    double_div_ieee_eval 24 3 24 1077 (4503599627370496 * 2 ^ 1025) _ (by norm_num)
      (by norm_num) (by norm_num) (by norm_num) (by norm_num)
      (by norm_num [round_half_even]) (by norm_num)
  refine ⟨?_, ?_, ?_⟩
  · rw [calculate_result_ieee_of_stored (demo_manager 4) "Student 1" [8, 7, 6] (by decide)
      (by decide) (by decide), s1, hlen, d1]
  · rw [calculate_result_ieee_of_stored (demo_manager 4) "Student 2" [9, 5, 4] (by decide)
      (by decide) (by decide), s2, hlen, d2]
  · rw [calculate_result_ieee_of_stored (demo_manager 4) "Student 3" [10, 9, 6] (by decide)
      (by decide) (by decide), s3, hlen, d3]

/-! ## One more task, in double arithmetic -/

theorem accumulate_ieee_append (tasks : List Task) (t : Task) (scores : List Int)
    (count : Nat) :
    ∀ (x : Int) (j : Nat), j + count ≤ tasks.length →
      accumulate_ieee (tasks ++ [t]) scores x j count
        = accumulate_ieee tasks scores x j count := by
  induction count with
  | zero => intro x j _; rfl
  | succ n ih =>
    intro x j h
    simp only [accumulate_ieee, max_score_at_append tasks t j (by omega)]
    exact ih _ (j + 1) (by omega)

/-- With at least one slot per worker the workers run to completion. -/
theorem run_workers_ieee_defined (tasks : List Task) (student_scores : List Int)
    (n m : Nat) (hs : m ≤ student_scores.length) (ht : m ≤ tasks.length) (count : Nat) :
    ∀ (i : Nat) (slots : List Int), i + count = n → slots.length = n →
      ∃ slots', run_workers_ieee tasks student_scores n m (m / n) i count slots
        = some slots' := by
  induction count with
  | zero => intro i slots _ _; exact ⟨slots, rfl⟩
  | succ c ih =>
    intro i slots hi hlen
    have hw := worker_ieee_spec tasks student_scores n m i slots hs ht (by omega) hlen
    obtain ⟨slots', h⟩ := ih (i + 1) _ (by omega)
      (show (slots.set i (accumulate_ieee tasks student_scores (slots.getD i 0)
        (chunk_start (m / n) i)
        (chunk_end n m (m / n) i - chunk_start (m / n) i))).length = n by simpa using hlen)
    exact ⟨slots', by simp only [run_workers_ieee, hw, h]⟩

/-- A task appended beyond the scored indices does not change what the workers
compute. -/
theorem run_workers_ieee_append (tasks : List Task) (t : Task) (student_scores : List Int)
    (n m : Nat) (hs : m ≤ student_scores.length) (ht : m ≤ tasks.length) (count : Nat) :
    ∀ (i : Nat) (slots : List Int), i + count = n → slots.length = n →
      run_workers_ieee (tasks ++ [t]) student_scores n m (m / n) i count slots
        = run_workers_ieee tasks student_scores n m (m / n) i count slots := by
  induction count with
  | zero => intro i slots _ _; rfl
  | succ c ih =>
    intro i slots hi hlen
    have hilt : i < n := by omega
    obtain ⟨hb1, hb2⟩ := chunk_bounds n m i hilt
    have ht' : m ≤ (tasks ++ [t]).length := by
      simp only [List.length_append, List.length_singleton]; omega
    have hw := worker_ieee_spec tasks student_scores n m i slots hs ht hilt hlen
    have hw' := worker_ieee_spec (tasks ++ [t]) student_scores n m i slots hs ht' hilt hlen
    rw [accumulate_ieee_append tasks t student_scores _ _ _ (by omega)] at hw'
    simp only [run_workers_ieee, hw, hw']
    exact ih (i + 1) _ (by omega) (by simpa using hlen)

/-- With at least one worker thread the call returns the double quotient of the
accumulated total by the number of tasks. -/
theorem calculate_result_ieee_total (tm : TaskManager) (student : String)
    (h : 1 ≤ tm.num_threads) :
    ∃ slots', run_workers_ieee tm.tasks (map_index tm.scores student).2 tm.num_threads.toNat
          (min (map_index tm.scores student).2.length tm.tasks.length)
          (min (map_index tm.scores student).2.length tm.tasks.length / tm.num_threads.toNat)
          0 tm.num_threads.toNat (List.replicate tm.num_threads.toNat 0) = some slots'
      ∧ calculate_result_ieee tm student
          = some ({ tm with scores := (map_index tm.scores student).1 },
              double_div_ieee (total_of_ieee slots') tm.tasks.length) := by
  have hpos : ¬ tm.num_threads ≤ 0 := by omega
  obtain ⟨slots', hrun⟩ :=
    run_workers_ieee_defined tm.tasks (map_index tm.scores student).2 tm.num_threads.toNat
      (min (map_index tm.scores student).2.length tm.tasks.length)
      (Nat.min_le_left _ _) (Nat.min_le_right _ _)
      tm.num_threads.toNat 0 (List.replicate tm.num_threads.toNat 0) (by omega) (by simp)
  refine ⟨slots', hrun, ?_⟩
  unfold calculate_result_ieee
  simp only [hpos, if_false, map_index_again, hrun]

/-- Below `2^53` the accumulated total is the exact clamped sum. -/
theorem total_of_ieee_exact (tasks : List Task) (student_scores : List Int) (n : Nat)
    (hn : 1 ≤ n) (hbound : abs_clamped_sum tasks student_scores ≤ 2 ^ 53)
    (slots' : List Int)
    (hrun : run_workers_ieee tasks student_scores n
        (min student_scores.length tasks.length)
        (min student_scores.length tasks.length / n) 0 n (List.replicate n 0)
      = some slots') :
    total_of_ieee slots' = clamped_sum tasks student_scores := by
  have hne : ¬ n = 0 := by omega
  have hzero : ((List.replicate n (0 : Int)).map (fun x => |x|)).sum = 0 := by simp
  obtain ⟨slots1, hieee, hexact, _, hpot⟩ :=
    run_workers_ieee_exact tasks student_scores n (min student_scores.length tasks.length)
      (Nat.min_le_left _ _) (Nat.min_le_right _ _) n 0 (List.replicate n 0)
      (by omega) (by simp)
      (by
        simp only [hne, if_false, Nat.zero_mul, Nat.sub_zero, hzero]
        unfold abs_clamped_sum at hbound
        omega)
  rw [hrun] at hieee
  simp only [Option.some.injEq] at hieee
  subst hieee
  simp only [hne, if_false, Nat.zero_mul, Nat.sub_zero, hzero] at hpot
  obtain ⟨slots2, hexact', _, hsum⟩ :=
    run_workers_spec tasks student_scores n (min student_scores.length tasks.length)
      (Nat.min_le_left _ _) (Nat.min_le_right _ _) n 0 (List.replicate n 0)
      (by omega) (by simp)
  rw [hexact] at hexact'
  simp only [Option.some.injEq] at hexact'
  subst hexact'
  simp only [hne, if_false, Nat.zero_mul, Nat.sub_zero, chunk_sum_zero_eq] at hsum
  have hsum0 : (List.replicate n (0 : Int)).sum = 0 := by simp
  rw [hsum0, zero_add] at hsum
  unfold total_of_ieee
  unfold abs_clamped_sum at hbound
  rw [foldl_round_exact slots' 0 (by simp only [abs_zero]; omega), zero_add, hsum]

/-! ## Monotonicity in double arithmetic -/

theorem round_int_mono (a b : Int) (h : a ≤ b) : round_int a ≤ round_int b := by
  unfold round_int
  split_ifs with ha hb hb
  · have hm := round_mantissa_mono b.natAbs a.natAbs 1 (by norm_num) (by omega)
    omega
  · omega
  · omega
  · have hm := round_mantissa_mono a.natAbs b.natAbs 1 (by norm_num) (by omega)
    omega

theorem double_quotient_mono_int (a a' : Int) (b : Nat) (hb : 0 < b) (h : a ≤ a') :
    double_quotient a b ≤ double_quotient a' b := by
  have hpos : (0 : ℚ) < 2 ^ 1074 := by positivity
  unfold double_quotient
  split_ifs with ha ha'
  · have hnat : a'.natAbs * 2 ^ 1074 ≤ a.natAbs * 2 ^ 1074 :=
      Nat.mul_le_mul_right _ (by omega)
    have hm := round_mantissa_mono _ _ b hb hnat
    have hq : ((round_mantissa (a'.natAbs * 2 ^ 1074) b : Nat) : ℚ) / 2 ^ 1074
        ≤ ((round_mantissa (a.natAbs * 2 ^ 1074) b : Nat) : ℚ) / 2 ^ 1074 := by
      apply div_le_div_of_nonneg_right
      · exact_mod_cast hm
      · exact le_of_lt hpos
    linarith
  · have h1 : (0 : ℚ) ≤ ((round_mantissa (a.natAbs * 2 ^ 1074) b : Nat) : ℚ) / 2 ^ 1074 :=
      div_nonneg (Nat.cast_nonneg _) (le_of_lt hpos)
    have h2 : (0 : ℚ) ≤ ((round_mantissa (a'.natAbs * 2 ^ 1074) b : Nat) : ℚ) / 2 ^ 1074 :=
      div_nonneg (Nat.cast_nonneg _) (le_of_lt hpos)
    linarith
  · omega
  · have hnat : a.natAbs * 2 ^ 1074 ≤ a'.natAbs * 2 ^ 1074 :=
      Nat.mul_le_mul_right _ (by omega)
    have hm := round_mantissa_mono _ _ b hb hnat
    apply div_le_div_of_nonneg_right
    · exact_mod_cast hm
    · exact le_of_lt hpos

theorem accumulate_ieee_mono (tasks : List Task) (h : ∀ t ∈ tasks, 0 ≤ t.max_score)
    (v v' : List Int) (hv : ∀ j, v.getD j 0 ≤ v'.getD j 0) (count : Nat) :
    ∀ (x x' : Int) (j : Nat), x ≤ x' →
      accumulate_ieee tasks v x j count ≤ accumulate_ieee tasks v' x' j count := by
  induction count with
  | zero => intro x x' j hx; exact hx
  | succ c ih =>
    intro x x' j hx
    simp only [accumulate_ieee]
    apply ih
    apply round_int_mono
    have := clamp_mono (v.getD j 0) (v'.getD j 0) (max_score_at tasks j) (hv j)
      (max_score_at_nonneg tasks h j)
    omega

theorem getD_set_le (slots slots' : List Int) (i : Nat) (a a' : Int)
    (hlen : slots.length = slots'.length) (hs : ∀ k, slots.getD k 0 ≤ slots'.getD k 0)
    (ha : a ≤ a') (k : Nat) : (slots.set i a).getD k 0 ≤ (slots'.set i a').getD k 0 := by
  have hk := hs k
  simp only [List.getD_eq_getElem?_getD, List.getElem?_set] at hk ⊢
  by_cases hik : i = k
  · subst hik
    by_cases hi : i < slots.length
    · have hi' : i < slots'.length := by omega
      simp [hi, hi', ha]
    · have hi' : ¬ i < slots'.length := by omega
      simp [hi, hi']
  · simp only [hik, if_false]
    exact hk

/-- Workers run on pointwise larger scores end with pointwise larger slots. -/
theorem run_workers_ieee_mono (tasks : List Task) (h : ∀ t ∈ tasks, 0 ≤ t.max_score)
    (v v' : List Int) (hv : ∀ j, v.getD j 0 ≤ v'.getD j 0) (n m : Nat)
    (hs : m ≤ v.length) (hs' : m ≤ v'.length) (ht : m ≤ tasks.length) (count : Nat) :
    ∀ (i : Nat) (slots slots' : List Int), i + count = n → slots.length = n →
      slots'.length = n → (∀ k, slots.getD k 0 ≤ slots'.getD k 0) →
      ∃ out out', run_workers_ieee tasks v n m (m / n) i count slots = some out
        ∧ run_workers_ieee tasks v' n m (m / n) i count slots' = some out'
        ∧ out.length = out'.length ∧ ∀ k, out.getD k 0 ≤ out'.getD k 0 := by
  induction count with
  | zero =>
    intro i slots slots' _ hlen hlen' hle
    exact ⟨slots, slots', rfl, rfl, by omega, hle⟩
  | succ c ih =>
    intro i slots slots' hi hlen hlen' hle
    have hilt : i < n := by omega
    have hw := worker_ieee_spec tasks v n m i slots hs ht hilt hlen
    have hw' := worker_ieee_spec tasks v' n m i slots' hs' ht hilt hlen'
    obtain ⟨out, out', h1, h2, h3, h4⟩ := ih (i + 1)
      (slots.set i (accumulate_ieee tasks v (slots.getD i 0) (chunk_start (m / n) i)
        (chunk_end n m (m / n) i - chunk_start (m / n) i)))
      (slots'.set i (accumulate_ieee tasks v' (slots'.getD i 0) (chunk_start (m / n) i)
        (chunk_end n m (m / n) i - chunk_start (m / n) i)))
      (by omega) (by simpa using hlen) (by simpa using hlen')
      (getD_set_le slots slots' i _ _ (by omega) hle
        (accumulate_ieee_mono tasks h v v' hv _ _ _ _ (hle i)))
    exact ⟨out, out', by simp only [run_workers_ieee, hw, h1],
      by simp only [run_workers_ieee, hw', h2], h3, h4⟩

theorem foldl_round_mono :
    ∀ (slots slots' : List Int) (acc acc' : Int), slots.length = slots'.length →
      (∀ k, slots.getD k 0 ≤ slots'.getD k 0) → acc ≤ acc' →
      slots.foldl (fun acc score => round_int (acc + score)) acc
        ≤ slots'.foldl (fun acc score => round_int (acc + score)) acc' := by
  intro slots
  induction slots with
  | nil =>
    intro slots' acc acc' hlen _ hacc
    cases slots' with
    | nil => exact hacc
    | cons y ys => simp at hlen
  | cons x xs ih =>
    intro slots' acc acc' hlen hle hacc
    cases slots' with
    | nil => simp at hlen
    | cons y ys =>
      have h0 : x ≤ y := by simpa using hle 0
      simp only [List.foldl_cons]
      apply ih ys _ _ (by simpa using hlen)
      · intro k
        simpa using hle (k + 1)
      · exact round_int_mono _ _ (by omega)

/-- Raising scores pointwise never lowers the returned double, whatever the
size of the sums. -/
theorem calculate_result_ieee_mono (tm tm' : TaskManager) (student : String)
    (v v' : List Int) (hthreads : 1 ≤ tm.num_threads)
    (htasks : tm.tasks ≠ []) (hmax : ∀ t ∈ tm.tasks, 0 ≤ t.max_score)
    (hsame : tm'.tasks = tm.tasks) (hsame' : tm'.num_threads = tm.num_threads)
    (hstored : map_find tm.scores student = some v)
    (hstored' : map_find tm'.scores student = some v')
    (hlen : v.length = v'.length) (hv : ∀ j, v.getD j 0 ≤ v'.getD j 0) :
    ∃ q q', calculate_result_ieee tm student = some (tm, DoubleVal.finite q)
      ∧ calculate_result_ieee tm' student = some (tm', DoubleVal.finite q')
      ∧ q ≤ q' := by
  have hn : tm.tasks.length ≠ 0 := by
    intro h0; exact htasks (List.length_eq_zero.mp h0)
  have hidx : map_index tm.scores student = (tm.scores, v) := map_index_of_find _ _ _ hstored
  have hidx' : map_index tm'.scores student = (tm'.scores, v') :=
    map_index_of_find _ _ _ hstored'
  obtain ⟨slots, hrun, hres⟩ := calculate_result_ieee_total tm student hthreads
  obtain ⟨slots', hrun', hres'⟩ :=
    calculate_result_ieee_total tm' student (by rw [hsame']; exact hthreads)
  rw [hidx] at hrun hres
  rw [hidx', hsame, hsame'] at hrun'
  rw [hidx', hsame] at hres'
  rw [← hlen] at hrun'
  obtain ⟨out, out', h1, h2, h3, h4⟩ :=
    run_workers_ieee_mono tm.tasks hmax v v' hv tm.num_threads.toNat
      (min v.length tm.tasks.length) (Nat.min_le_left _ _)
      (by rw [← hlen]; exact Nat.min_le_left _ _) (Nat.min_le_right _ _)
      tm.num_threads.toNat 0 (List.replicate tm.num_threads.toNat 0)
      (List.replicate tm.num_threads.toNat 0) (by omega) (by simp) (by simp)
      (fun _ => le_refl _)
  rw [hrun] at h1
  rw [hrun'] at h2
  simp only [Option.some.injEq] at h1 h2
  subst h1
  subst h2
  have htotal : total_of_ieee slots ≤ total_of_ieee slots' :=
    foldl_round_mono slots slots' 0 0 h3 h4 (le_refl _)
  refine ⟨_, _, ?_, ?_, double_quotient_mono_int _ _ (round_mantissa tm.tasks.length 1)
    (Nat.pos_of_ne_zero (round_mantissa_ne_zero _ hn)) htotal⟩
  · rw [hres, double_div_ieee_finite _ _ hn]
  · rw [hres', double_div_ieee_finite _ _ hn]
    have hstruct : TaskManager.mk tm.tasks tm'.scores tm'.num_threads = tm' := by
      rw [← hsame]
    exact congrArg (fun t => some (t, DoubleVal.finite
      (double_quotient (total_of_ieee slots') (round_mantissa tm.tasks.length 1)))) hstruct

/-! ## Claims on the returned double -/

/-- C1, as stated, fails on the returned double. With 4194306 tasks of maximum
`2^31 - 1` and a student who scores it on each (a valid record), one worker
returns `4503599625273345 / 2^21` and two workers return `2147483647`: the value
depends on the worker count. And with maxima 10, 6, 4 and the scores 10, 6, 4
(clamped sum 20 over 3 tasks) the call returns the double
`7505999378950827 / 2^50`, which is not `20 / 3`. -/
theorem result_varies_with_thread_count :
    (map_find (large_manager 1).scores "Student 1"
          = some (List.replicate 4194306 2147483647)
        ∧ (∀ s ∈ List.replicate 4194306 (2147483647 : Int), 0 ≤ s)
        ∧ (large_manager 1).tasks.length = 4194306
        ∧ (large_manager 2).tasks = (large_manager 1).tasks
        ∧ (large_manager 2).scores = (large_manager 1).scores
        ∧ calculate_result_ieee (large_manager 1) "Student 1"
            = some (large_manager 1, DoubleVal.finite (4503599625273345 / 2097152))
        ∧ calculate_result_ieee (large_manager 2) "Student 1"
            = some (large_manager 2, DoubleVal.finite 2147483647)
        ∧ (4503599625273345 / 2097152 : ℚ) ≠ 2147483647)
      ∧ (map_find thirds_manager.scores "Student 1" = some [10, 6, 4]
        ∧ clamped_sum thirds_manager.tasks [10, 6, 4] = 20
        ∧ thirds_manager.tasks.length = 3
        ∧ calculate_result_ieee thirds_manager "Student 1"
            = some (thirds_manager,
                DoubleVal.finite (7505999378950827 / 1125899906842624))
        ∧ (7505999378950827 / 1125899906842624 : ℚ) ≠ 20 / 3) :=
  ⟨⟨(uniform_stored 4194306 2147483647 1 (by norm_num)).1,
      (uniform_stored 4194306 2147483647 1 (by norm_num)).2.1,
      (uniform_stored 4194306 2147483647 1 (by norm_num)).2.2,
      rfl, rfl, large_results.1, large_results.2, by norm_num⟩,
    ⟨by decide, by decide, by decide, thirds_result, by norm_num⟩⟩

/-- C1, amended: for every worker count `num_threads >= 1`, every non-empty task
list and every student whose stored score vector `v` has all entries `>= 0`, if
the absolute values of the clamped scores sum to at most `2^53`, then
`calculate_result(student)` returns the double nearest to (the sum over
`i < min(len(v), len(tasks))` of `clamp(v[i], 0, tasks[i].max_score)`) divided
by `len(tasks)`, and the returned value is the same for any two worker counts
`n1, n2 >= 1`. -/
theorem calculate_result_ieee_clamped_average (tm : TaskManager) (student : String)
    (v : List Int) (hthreads : 1 ≤ tm.num_threads) (htasks : tm.tasks ≠ [])
    (hstored : map_find tm.scores student = some v) (_hvalid : ∀ s ∈ v, 0 ≤ s)
    (hbound : abs_clamped_sum tm.tasks v ≤ 2 ^ 53) :
    calculate_result_ieee tm student
        = some (tm, DoubleVal.finite
            (double_quotient (clamped_sum tm.tasks v) (round_mantissa tm.tasks.length 1)))
      ∧ ∀ n1 n2 : Int, 1 ≤ n1 → 1 ≤ n2 →
          (calculate_result_ieee { tm with num_threads := n1 } student).map Prod.snd
            = (calculate_result_ieee { tm with num_threads := n2 } student).map Prod.snd := by
  have hlen : tm.tasks.length ≠ 0 := by
    intro h0; exact htasks (List.length_eq_zero.mp h0)
  have key : ∀ n : Int, 1 ≤ n →
      calculate_result_ieee { tm with num_threads := n } student
        = some ({ tm with num_threads := n }, DoubleVal.finite
            (double_quotient (clamped_sum tm.tasks v) (round_mantissa tm.tasks.length 1))) := by
    intro n hn
    rw [calculate_result_ieee_of_stored { tm with num_threads := n } student v hn hstored
      hbound, double_div_ieee_finite _ _ hlen]
  refine ⟨key tm.num_threads hthreads, ?_⟩
  intro n1 n2 h1 h2
  rw [key n1 h1, key n2 h2]
  rfl

/-- Witness of C1 (amended) on the demonstration data with 4 worker threads and
"Student 3", whose second score 9 exceeds the maximum 8. -/
theorem calculate_result_ieee_clamped_average_witness :
    (1 : Int) ≤ (demo_manager 4).num_threads ∧ (demo_manager 4).tasks ≠ []
      ∧ map_find (demo_manager 4).scores "Student 3" = some [10, 9, 6]
      ∧ (∀ s ∈ ([10, 9, 6] : List Int), 0 ≤ s)
      ∧ abs_clamped_sum (demo_manager 4).tasks [10, 9, 6] ≤ 2 ^ 53
      ∧ calculate_result_ieee (demo_manager 4) "Student 3"
          = some (demo_manager 4, DoubleVal.finite
              (double_quotient (clamped_sum (demo_manager 4).tasks [10, 9, 6])
                (round_mantissa (demo_manager 4).tasks.length 1))) :=
  ⟨by decide, by decide, by decide, by decide, by decide,
    (calculate_result_ieee_clamped_average (demo_manager 4) "Student 3" [10, 9, 6]
      (by decide) (by decide) (by decide) (by decide) (by decide)).1⟩

/-- C11, as stated, fails on the returned doubles: with 6 tasks and the clamped
sum 29 the result is the double nearest to `29 / 6`, after a seventh task the
double nearest to `29 / 7`, and `after * 7` is not `before * 6`, neither as
exact products of the two doubles nor as products formed in double arithmetic
(`29 + 2^(-48)` against `29`). -/
theorem six_tasks_dilution_not_exact :
    map_find six_tasks_manager.scores "Student 1" = some [10, 10, 9]
      ∧ six_tasks_manager.tasks.length = 6
      ∧ calculate_result_ieee six_tasks_manager "Student 1"
          = some (six_tasks_manager,
              DoubleVal.finite (5441849549739349 / 1125899906842624))
      ∧ calculate_result_ieee (add_task six_tasks_manager "Task 7" 10) "Student 1"
          = some (add_task six_tasks_manager "Task 7" 10,
              DoubleVal.finite (4664442471205157 / 1125899906842624))
      ∧ (4664442471205157 / 1125899906842624 : ℚ) * 7
          ≠ (5441849549739349 / 1125899906842624 : ℚ) * 6
      ∧ double_quotient (4664442471205157 * 7) 1125899906842624
          = 8162774324609025 / 281474976710656
      ∧ double_quotient (5441849549739349 * 6) 1125899906842624 = 29
      ∧ (8162774324609025 / 281474976710656 : ℚ) ≠ 29 :=
  ⟨by decide, by decide, six_tasks_results.1, six_tasks_results.2, by norm_num,
    double_quotient_eval _ _ 32651097298436099 1078 (8162774324609025 * 2 ^ 1026) _
      (by norm_num) (by norm_num) (by norm_num) (by norm_num [round_half_even])
      (by norm_num),
    double_quotient_eval _ _ 32651097298436094 1078 (8162774324609024 * 2 ^ 1026) _
      (by norm_num) (by norm_num) (by norm_num) (by norm_num [round_half_even])
      (by norm_num),
    by norm_num⟩

/-- C11, amended: dilution by missing tasks: for every `num_threads >= 1`, every
state with `n >= 1` tasks and every student whose stored vector has at most `n`
scores, appending one more task with `add_task` (any name, any `max_score`)
leaves the numerator unchanged and raises the number of tasks to `n + 1`: there
is one accumulated total such that `calculate_result` is the double quotient of
that total by `n` before and by `n + 1` after; the total is the sum `S` of the
clamped recorded scores when their absolute values sum to at most `2^53`, and
`S` is the same before and after. The exact quotients satisfy
`(S / (n + 1)) * (n + 1) = (S / n) * n`. -/
theorem add_task_dilutes_result_ieee (tm : TaskManager) (student name : String)
    (max_score : Int) (v : List Int) (hthreads : 1 ≤ tm.num_threads)
    (htasks : tm.tasks ≠ []) (hstored : map_find tm.scores student = some v)
    (hlen : v.length ≤ tm.tasks.length) :
    ∃ total : Int,
      calculate_result_ieee tm student
          = some (tm, DoubleVal.finite
              (double_quotient total (round_mantissa tm.tasks.length 1)))
        ∧ calculate_result_ieee (add_task tm name max_score) student
            = some (add_task tm name max_score, DoubleVal.finite
                (double_quotient total (round_mantissa (tm.tasks.length + 1) 1)))
        ∧ (abs_clamped_sum tm.tasks v ≤ 2 ^ 53 → total = clamped_sum tm.tasks v)
        ∧ clamped_sum (add_task tm name max_score).tasks v = clamped_sum tm.tasks v
        ∧ (add_task tm name max_score).tasks.length = tm.tasks.length + 1
        ∧ ((clamped_sum tm.tasks v : ℚ) / ((tm.tasks.length : ℚ) + 1))
              * ((tm.tasks.length : ℚ) + 1)
            = ((clamped_sum tm.tasks v : ℚ) / (tm.tasks.length : ℚ))
              * (tm.tasks.length : ℚ) := by
  have hn : tm.tasks.length ≠ 0 := by
    intro h0; exact htasks (List.length_eq_zero.mp h0)
  have hnpos : 1 ≤ tm.num_threads.toNat := by omega
  have hsum : clamped_sum (add_task tm name max_score).tasks v = clamped_sum tm.tasks v :=
    clamped_sum_append tm.tasks _ v hlen
  have hlen' : (add_task tm name max_score).tasks.length = tm.tasks.length + 1 := by
    simp [add_task]
  have hidx : map_index tm.scores student = (tm.scores, v) := map_index_of_find _ _ _ hstored
  have hidx' : map_index (add_task tm name max_score).scores student = (tm.scores, v) := hidx
  have hmin : min v.length tm.tasks.length = v.length := by omega
  have hmin' : min v.length
      (tm.tasks ++ [({ name := name, max_score := max_score } : Task)]).length
      = v.length := by
    simp only [List.length_append, List.length_singleton]; omega
  obtain ⟨slots, hrun, hres⟩ := calculate_result_ieee_total tm student hthreads
  obtain ⟨slots', hrun', hres'⟩ :=
    calculate_result_ieee_total (add_task tm name max_score) student hthreads
  rw [hidx] at hrun hres
  rw [hidx'] at hrun' hres'
  have htasks' : (add_task tm name max_score).tasks
      = tm.tasks ++ [{ name := name, max_score := max_score }] := rfl
  have hthreads' : (add_task tm name max_score).num_threads = tm.num_threads := rfl
  rw [htasks', hthreads'] at hrun'
  simp only [hmin] at hrun
  simp only [hmin'] at hrun'
  rw [run_workers_ieee_append tm.tasks { name := name, max_score := max_score } v
    tm.num_threads.toNat v.length (le_refl _) hlen tm.num_threads.toNat 0
    (List.replicate tm.num_threads.toNat 0) (by omega) (by simp), hrun] at hrun'
  simp only [Option.some.injEq] at hrun'
  subst hrun'
  refine ⟨total_of_ieee slots, ?_, ?_, ?_, hsum, hlen', ?_⟩
  · rw [hres, double_div_ieee_finite _ _ hn]
  · rw [hres', hlen', double_div_ieee_finite _ _ (by omega)]
    rfl
  · intro hbound
    exact total_of_ieee_exact tm.tasks v tm.num_threads.toNat hnpos hbound slots
      (by simpa only [hmin] using hrun)
  · have h0 : (tm.tasks.length : ℚ) ≠ 0 := by exact_mod_cast hn
    have h1 : (tm.tasks.length : ℚ) + 1 ≠ 0 := by
      have : (0 : ℚ) ≤ (tm.tasks.length : ℚ) := by exact_mod_cast Nat.zero_le _
      intro h; linarith
    field_simp

/-- Witness of C11 (amended): "Student 1" (three scores, sum 21) on the three
demonstration tasks, then a fourth task "Task 4" with maximum 5. -/
theorem add_task_dilutes_result_ieee_witness :
    (1 : Int) ≤ (demo_manager 4).num_threads ∧ (demo_manager 4).tasks ≠ []
      ∧ map_find (demo_manager 4).scores "Student 1" = some [8, 7, 6]
      ∧ ([8, 7, 6] : List Int).length ≤ (demo_manager 4).tasks.length
      ∧ ∃ total : Int,
          calculate_result_ieee (demo_manager 4) "Student 1"
              = some (demo_manager 4, DoubleVal.finite
                  (double_quotient total (round_mantissa (demo_manager 4).tasks.length 1)))
            ∧ calculate_result_ieee (add_task (demo_manager 4) "Task 4" 5) "Student 1"
                = some (add_task (demo_manager 4) "Task 4" 5, DoubleVal.finite
                    (double_quotient total
                      (round_mantissa ((demo_manager 4).tasks.length + 1) 1)))
            ∧ (abs_clamped_sum (demo_manager 4).tasks [8, 7, 6] ≤ 2 ^ 53 →
                total = clamped_sum (demo_manager 4).tasks [8, 7, 6]) := by
  obtain ⟨total, h1, h2, h3, _⟩ :=
    add_task_dilutes_result_ieee (demo_manager 4) "Student 1" "Task 4" 5 [8, 7, 6]
      (by decide) (by decide) (by decide) (by decide)
  exact ⟨by decide, by decide, by decide, by decide, total, h1, h2, h3⟩

/-- C16, as stated, fails on the returned double. With maxima 10, 6, 4 (sum 20,
3 tasks) and the scores 10, 6, 4, `calculate_result` returns the double
`7505999378950827 / 2^50`, which is above `20 / 3`. And with 4194306 tasks of
maximum `2^31 - 1` (sum `9007203545513982`, above `2^53`), all scored at the
maximum, one worker returns `4503599625273345 / 2^21`, which is above the
quotient `2147483647` of the sum of the maxima by the number of tasks. -/
theorem thirds_result_above_bound :
    ((∀ t ∈ thirds_manager.tasks, 0 ≤ t.max_score)
        ∧ (get_max_scores thirds_manager).sum = 20
        ∧ thirds_manager.tasks.length = 3
        ∧ calculate_result_ieee thirds_manager "Student 1"
            = some (thirds_manager,
                DoubleVal.finite (7505999378950827 / 1125899906842624))
        ∧ (20 / 3 : ℚ) < 7505999378950827 / 1125899906842624)
      ∧ ((∀ t ∈ (large_manager 1).tasks, 0 ≤ t.max_score)
        ∧ (get_max_scores (large_manager 1)).sum = 9007203545513982
        ∧ (large_manager 1).tasks.length = 4194306
        ∧ calculate_result_ieee (large_manager 1) "Student 1"
            = some (large_manager 1, DoubleVal.finite (4503599625273345 / 2097152))
        ∧ (9007203545513982 / 4194306 : ℚ) = 2147483647
        ∧ (2147483647 : ℚ) < 4503599625273345 / 2097152) :=
  ⟨⟨by decide, by decide, by decide, thirds_result, by norm_num⟩,
    ⟨(uniform_max_scores 4194306 2147483647 1 (by norm_num)).1,
      (uniform_max_scores 4194306 2147483647 1 (by norm_num)).2.trans (by norm_num),
      (uniform_stored 4194306 2147483647 1 (by norm_num)).2.2,
      large_results.1, by norm_num, by norm_num⟩⟩

/-- C16, amended: when every task's `max_score` is `>= 0` and there is at least
one task, for every `num_threads >= 1` and every student: if the sum of all
tasks' `max_score` is at most `2^53`, `calculate_result(student)` is at most the
double nearest to (the sum of all tasks' `max_score`) / `len(tasks)`; and, with
no condition on the size of the sums, it is monotone in the scores: replacing
one stored score of a valid record by a larger value (through `add_scores`)
never lowers the result. -/
theorem result_ieee_bounded_and_monotone (tm : TaskManager)
    (hthreads : 1 ≤ tm.num_threads) (htasks : tm.tasks ≠ [])
    (hmax : ∀ t ∈ tm.tasks, 0 ≤ t.max_score) :
    ((get_max_scores tm).sum ≤ 2 ^ 53 →
        ∀ student : String, ∃ tm' q qmax,
          calculate_result_ieee tm student = some (tm', DoubleVal.finite q)
            ∧ double_div_ieee (get_max_scores tm).sum tm.tasks.length
                = DoubleVal.finite qmax
            ∧ q ≤ qmax)
      ∧ (∀ (student : String) (v : List Int) (k : Nat) (x : Int),
          map_find tm.scores student = some v → (∀ s ∈ v, 0 ≤ s) → k < v.length →
          v.getD k 0 ≤ x →
          ∃ q q', calculate_result_ieee tm student = some (tm, DoubleVal.finite q)
            ∧ calculate_result_ieee (add_scores tm student (v.set k x)) student
                = some (add_scores tm student (v.set k x), DoubleVal.finite q')
            ∧ q ≤ q') := by
  have hn : tm.tasks.length ≠ 0 := by
    intro h0; exact htasks (List.length_eq_zero.mp h0)
  constructor
  · intro hbound student
    have hle : ∀ scores : List Int, abs_clamped_sum tm.tasks scores ≤ 2 ^ 53 := by
      intro scores
      rw [abs_clamped_sum_of_nonneg tm.tasks scores hmax]
      exact le_trans (clamped_sum_le_max tm.tasks hmax scores) hbound
    obtain ⟨q, qmax, h1, h2, h3⟩ := double_div_ieee_mono
      (clamped_sum tm.tasks (map_index tm.scores student).2) (get_max_scores tm).sum
      tm.tasks.length hn (clamped_sum_nonneg tm.tasks _ hmax)
      (clamped_sum_le_max tm.tasks hmax _)
    exact ⟨{ tm with scores := (map_index tm.scores student).1 }, q, qmax,
      by rw [calculate_result_ieee_eq tm student hthreads (hle _), h1], h2, h3⟩
  · intro student v k x hstored hvalid hk hx
    have hvalid' : ∀ s ∈ v.set k x, 0 ≤ s := by
      intro s hs
      rcases List.mem_or_eq_of_mem_set hs with h | h
      · exact hvalid s h
      · have hvk : 0 ≤ v.getD k 0 := by
          have hmem : v.getD k 0 ∈ v := by
            rw [List.getD_eq_getElem?_getD, List.getElem?_eq_getElem hk]
            exact List.getElem_mem hk
          exact hvalid _ hmem
        omega
    have hadd := add_scores_of_valid tm student (v.set k x) hvalid'
    have hstored' : map_find (add_scores tm student (v.set k x)).scores student
        = some (v.set k x) := by
      rw [hadd]; exact map_find_assign_same _ _ _
    have hv : ∀ j, v.getD j 0 ≤ (v.set k x).getD j 0 := by
      intro j
      by_cases hjk : k = j
      · subst hjk
        have hset : (v.set k x).getD k 0 = x := by
          simp [List.getD_eq_getElem?_getD, List.getElem?_set, hk]
        rw [hset]; exact hx
      · have hset : (v.set k x).getD j 0 = v.getD j 0 := by
          simp [List.getD_eq_getElem?_getD, List.getElem?_set, hjk]
        rw [hset]
    exact calculate_result_ieee_mono tm (add_scores tm student (v.set k x)) student v
      (v.set k x) hthreads htasks hmax (add_scores_tasks tm student _) (by rw [hadd])
      hstored hstored' (by simp) hv

/-- Witness of C16 (amended) on the demonstration manager (maxima 10, 8, 6, sum
24): the result of "Student 2" is at most the double nearest to `24 / 3`, and
raising the 5 of "Student 2" to 7 does not lower the result. -/
theorem result_ieee_bounded_and_monotone_witness :
    (1 : Int) ≤ (demo_manager 4).num_threads ∧ (demo_manager 4).tasks ≠ []
      ∧ (∀ t ∈ (demo_manager 4).tasks, 0 ≤ t.max_score)
      ∧ (get_max_scores (demo_manager 4)).sum ≤ 2 ^ 53
      ∧ (∃ tm' q qmax,
          calculate_result_ieee (demo_manager 4) "Student 2"
              = some (tm', DoubleVal.finite q)
            ∧ double_div_ieee (get_max_scores (demo_manager 4)).sum
                (demo_manager 4).tasks.length = DoubleVal.finite qmax
            ∧ q ≤ qmax)
      ∧ (∃ q q', calculate_result_ieee (demo_manager 4) "Student 2"
            = some (demo_manager 4, DoubleVal.finite q)
          ∧ calculate_result_ieee
                (add_scores (demo_manager 4) "Student 2" ([9, 5, 4].set 1 7)) "Student 2"
              = some (add_scores (demo_manager 4) "Student 2" ([9, 5, 4].set 1 7),
                  DoubleVal.finite q')
          ∧ q ≤ q') :=
  ⟨by decide, by decide, by decide, by decide,
    (result_ieee_bounded_and_monotone (demo_manager 4) (by decide) (by decide)
      (by decide)).1 (by decide) "Student 2",
    (result_ieee_bounded_and_monotone (demo_manager 4) (by decide) (by decide)
      (by decide)).2 "Student 2" [9, 5, 4] 1 7 (by decide) (by decide) (by decide)
      (by decide)⟩

end TaskManagerModel
